import Mathlib

/-!
# Verification of the rusto paper-trading engine

Shallow embedding of the core components of the `rusto` repository
(range-bar builder, volume profiler, order-flow tracker, local order book,
risk manager, position manager, simulator engine) and proofs about them.

Conventions of the embedding:
* `rust_decimal::Decimal` values are modelled as `ℚ`.  All additions,
  subtractions and multiplications of `Decimal` are exact, so `ℚ` is a
  faithful model for them (up to the 96-bit overflow bound, noted where it
  matters).  `Decimal` division rounds to 28 significant digits; every
  division appearing in a verified statement below is either exact at the
  inputs considered or only compared against thresholds, which is noted in
  place.
* `chrono::DateTime<Utc>` timestamps are modelled as `ℤ` (milliseconds).
* Rust `BTreeMap` is modelled as an association list whose keys are in
  strictly ascending order (its canonical iteration order), or, where only
  pointwise lookup matters, as a Lean function into `Option`.
* Rust `String` map keys (the footprint buckets) are modelled as their byte
  sequences, `List ℕ`, ordered byte-lexicographically exactly as Rust's
  `Ord for String` orders them.
-/

namespace Rusto

/-- Aggressor side of a trade / direction of an order (`types.rs`, `Side`). -/
inductive Side where
  | Buy
  | Sell
deriving DecidableEq, Repr

/-- `Side::opposite` from `types.rs`. -/
def Side.opposite : Side → Side
  | .Buy => .Sell
  | .Sell => .Buy

/-- Sign of a side, used to state pnl formulas the way the spec writes them:
`+1` for Buy, `-1` for Sell. -/
def Side.sign : Side → ℚ
  | .Buy => 1
  | .Sell => -1

/-- `types.rs`, `NormalizedTrade`.  Timestamps in milliseconds. -/
structure NormalizedTrade where
  symbol : String
  price : ℚ
  quantity : ℚ
  side : Side
  timestamp : ℤ
  tradeId : ℕ
deriving DecidableEq, Repr

/-- `types.rs`, `FootprintLevel` (volume at one price bucket of a bar). -/
structure FootprintLevel where
  bidVolume : ℚ
  askVolume : ℚ
deriving DecidableEq, Repr

/-- `FootprintLevel::default()`. -/
def FootprintLevel.default : FootprintLevel := ⟨0, 0⟩

/-- Footprint bucket key: the byte sequence of the Rust `String` key
produced by `price_key` in `range_bar.rs`. -/
abbrev BucketKey := List ℕ

/-- Byte-lexicographic strict order on bucket keys, exactly the order in
which `BTreeMap<String, _>` iterates its keys in Rust. -/
def keyLtb : BucketKey → BucketKey → Bool
  | [], [] => false
  | [], _ :: _ => true
  | _ :: _, [] => false
  | a :: as_, b :: bs => if a < b then true else if b < a then false else keyLtb as_ bs

/-- `types.rs`, `RangeBar`.  The footprint is the `BTreeMap<String,
FootprintLevel>` as its ascending-key association list. -/
structure RangeBar where
  symbol : String
  openPrice : ℚ
  highPrice : ℚ
  lowPrice : ℚ
  closePrice : ℚ
  volume : ℚ
  buyVolume : ℚ
  sellVolume : ℚ
  openTime : ℤ
  closeTime : ℤ
  footprint : List (BucketKey × FootprintLevel)
  barIndex : ℕ
deriving DecidableEq, Repr

/-- `RangeBar::delta` from `types.rs`. -/
def RangeBar.delta (b : RangeBar) : ℚ := b.buyVolume - b.sellVolume

/-! ## Range-bar builder (`range_bar.rs`) -/

/-- Round-half-to-even to an integer, the `MidpointNearestEven` strategy
used by `Decimal::round_dp`. -/
def roundHalfEven (x : ℚ) : ℤ :=
  let n := ⌊x⌋
  let r := x - n
  if r < 1/2 then n
  else if 1/2 < r then n + 1
  else if n % 2 = 0 then n else n + 1

/-- The value of `price.round_dp(1)` expressed in tenths. -/
def roundDp1Tenths (p : ℚ) : ℤ := roundHalfEven (10 * p)

/-- ASCII digit bytes of a natural number (big-endian); structural recursion
on a fuel bound (`n + 1` always suffices, the digit count is at most that). -/
def natDigitsAux : ℕ → ℕ → List ℕ
  | 0, _ => []
  | fuel + 1, n => if n < 10 then [48 + n] else natDigitsAux fuel (n / 10) ++ [48 + n % 10]

/-- ASCII digit bytes of a natural number (big-endian). -/
def natDigitBytes (n : ℕ) : List ℕ := natDigitsAux (n + 1) n

/-- `price_key` from `range_bar.rs`: `price.round_dp(1).to_string()`, as the
byte sequence of the resulting string.  Exchange trade prices carry at least
one decimal place, so the rounded decimal has scale exactly 1 and prints as
`<integer part>.<one digit>`; byte 46 is the dot, byte 45 the minus sign. -/
def price_key (p : ℚ) : BucketKey :=
  let n := roundDp1Tenths p
  if n < 0 then 45 :: natDigitBytes (n.natAbs / 10) ++ [46, 48 + n.natAbs % 10]
  else natDigitBytes (n.toNat / 10) ++ [46, 48 + n.toNat % 10]

/-- Add `qty` to the bid (aggressor Sell) or ask (aggressor Buy) volume of a
footprint level, as in `BuildingBar::new` / `BuildingBar::update`. -/
def FootprintLevel.bump (lv : FootprintLevel) (side : Side) (qty : ℚ) : FootprintLevel :=
  match side with
  | .Buy => { lv with askVolume := lv.askVolume + qty }
  | .Sell => { lv with bidVolume := lv.bidVolume + qty }

/-- `footprint.entry(key).or_default()` followed by adding the trade volume:
sorted insertion into the ascending-key association list of the `BTreeMap`. -/
def footprintAdd (key : BucketKey) (side : Side) (qty : ℚ) :
    List (BucketKey × FootprintLevel) → List (BucketKey × FootprintLevel)
  | [] => [(key, FootprintLevel.default.bump side qty)]
  | (k, lv) :: rest =>
    if key = k then (k, lv.bump side qty) :: rest
    else if keyLtb key k then (key, FootprintLevel.default.bump side qty) :: (k, lv) :: rest
    else (k, lv) :: footprintAdd key side qty rest

/-- `range_bar.rs`, `BuildingBar`: the bar under construction. -/
structure BuildingBar where
  openPrice : ℚ
  highPrice : ℚ
  lowPrice : ℚ
  closePrice : ℚ
  volume : ℚ
  buyVolume : ℚ
  sellVolume : ℚ
  openTime : ℤ
  footprint : List (BucketKey × FootprintLevel)
deriving DecidableEq, Repr

/-- `BuildingBar::new`: open a bar at the first trade. -/
def BuildingBar.new (trade : NormalizedTrade) : BuildingBar :=
  { openPrice := trade.price
    highPrice := trade.price
    lowPrice := trade.price
    closePrice := trade.price
    volume := trade.quantity
    buyVolume := if trade.side = .Buy then trade.quantity else 0
    sellVolume := if trade.side = .Sell then trade.quantity else 0
    openTime := trade.timestamp
    footprint := [(price_key trade.price, FootprintLevel.default.bump trade.side trade.quantity)] }

/-- `BuildingBar::update`: fold a subsequent trade into the bar. -/
def BuildingBar.update (b : BuildingBar) (trade : NormalizedTrade) : BuildingBar :=
  { b with
    closePrice := trade.price
    highPrice := if b.highPrice < trade.price then trade.price else b.highPrice
    lowPrice := if trade.price < b.lowPrice then trade.price else b.lowPrice
    volume := b.volume + trade.quantity
    buyVolume := if trade.side = .Buy then b.buyVolume + trade.quantity else b.buyVolume
    sellVolume := if trade.side = .Sell then b.sellVolume + trade.quantity else b.sellVolume
    footprint := footprintAdd (price_key trade.price) trade.side trade.quantity b.footprint }

/-- `BuildingBar::range`. -/
def BuildingBar.range (b : BuildingBar) : ℚ := b.highPrice - b.lowPrice

/-- `range_bar.rs`, `SymbolBarState`: per-symbol builder state. -/
structure SymbolBarState where
  rangeSize : ℚ
  current : Option BuildingBar
  barCount : ℕ
deriving DecidableEq, Repr

/-- `RangeBarBuilder`: the per-symbol state map (`BTreeMap<String,
SymbolBarState>` modelled pointwise) together with the configured range
lookup `config.range_for` (a deterministic function of the symbol). -/
structure RangeBarBuilder where
  rangeFor : String → ℚ
  builders : String → Option SymbolBarState

/-- `RangeBarBuilder::new`. -/
def RangeBarBuilder.new (rangeFor : String → ℚ) : RangeBarBuilder :=
  { rangeFor := rangeFor, builders := fun _ => none }

/-- `RangeBarBuilder::process_trade`.  Returns the updated builder and the
completed bar, if the range threshold was met. -/
def RangeBarBuilder.process_trade (rb : RangeBarBuilder) (trade : NormalizedTrade) :
    RangeBarBuilder × Option RangeBar :=
  let st := (rb.builders trade.symbol).getD
    { rangeSize := rb.rangeFor trade.symbol, current := none, barCount := 0 }
  match st.current with
  | none =>
    let st' := { st with current := some (BuildingBar.new trade) }
    ({ rb with builders := fun s => if s = trade.symbol then some st' else rb.builders s }, none)
  | some bar =>
    let bar := bar.update trade
    if st.rangeSize ≤ bar.range then
      let completed : RangeBar :=
        { symbol := trade.symbol
          openPrice := bar.openPrice
          highPrice := bar.highPrice
          lowPrice := bar.lowPrice
          closePrice := bar.closePrice
          volume := bar.volume
          buyVolume := bar.buyVolume
          sellVolume := bar.sellVolume
          openTime := bar.openTime
          closeTime := trade.timestamp
          footprint := bar.footprint
          barIndex := st.barCount + 1 }
      let st' := { st with current := some (BuildingBar.new trade), barCount := st.barCount + 1 }
      ({ rb with builders := fun s => if s = trade.symbol then some st' else rb.builders s },
        some completed)
    else
      let st' := { st with current := some bar }
      ({ rb with builders := fun s => if s = trade.symbol then some st' else rb.builders s }, none)

/-- Run the builder over a trade sequence, collecting every emitted bar in
order. -/
def RangeBarBuilder.processTrades (rb : RangeBarBuilder) :
    List NormalizedTrade → RangeBarBuilder × List RangeBar
  | [] => (rb, [])
  | t :: ts =>
    let (rb', out) := rb.process_trade t
    let (rb'', bars) := rb'.processTrades ts
    (rb'', out.toList ++ bars)

/-! ## Volume profiler (`volume_profile.rs`) -/

/-- `rust_decimal::Decimal::MAX`, used by the profiler as a session-low
sentinel. -/
def decimalMax : ℚ := 79228162514264337593543950335

/-- `price_to_tick`: `(price / tick_size).floor()` (the `i64` round trip
through `to_string().parse()` is the identity for all in-range values; the
out-of-`i64`-range fallback to 0 is not modelled). -/
def price_to_tick (price tickSize : ℚ) : ℤ := ⌊price / tickSize⌋

/-- `tick_to_price`. -/
def tick_to_price (tick : ℤ) (tickSize : ℚ) : ℚ := tick * tickSize

/-- `next_tick_above`: first tick of the ascending key list strictly above
`current`. -/
def next_tick_above (ticks : List ℤ) (current : ℤ) : Option ℤ :=
  ticks.find? fun t => current < t

/-- `next_tick_below`: last tick of the ascending key list strictly below
`current`. -/
def next_tick_below (ticks : List ℤ) (current : ℤ) : Option ℤ :=
  ticks.reverse.find? fun t => t < current

/-- `volume_profile.rs`, `SymbolProfile`.  `levels` is the
`BTreeMap<i64, Decimal>` as its ascending-key association list;
`recentTrades` holds `(timestamp, price, volume)`. -/
structure SymbolProfile where
  levels : List (ℤ × ℚ)
  sessionStart : ℤ
  totalVolume : ℚ
  sessionHigh : ℚ
  sessionLow : ℚ
  recentTrades : List (ℤ × ℚ × ℚ)
deriving DecidableEq, Repr

/-- `SymbolProfile::new`. -/
def SymbolProfile.new (now : ℤ) : SymbolProfile :=
  { levels := []
    sessionStart := now
    totalVolume := 0
    sessionHigh := 0
    sessionLow := decimalMax
    recentTrades := [] }

/-- `SymbolProfile::reset`. -/
def SymbolProfile.reset (_p : SymbolProfile) (now : ℤ) : SymbolProfile :=
  SymbolProfile.new now

/-- `SymbolProfile::clean_old_trades`: drop recent trades older than one
hour (3 600 000 ms). -/
def SymbolProfile.cleanOldTrades (p : SymbolProfile) (now : ℤ) : SymbolProfile :=
  { p with recentTrades := p.recentTrades.filter fun e => now - 3600000 ≤ e.1 }

/-- `SymbolProfile::calculate_vwap` over the recent-trade window. -/
def SymbolProfile.calculateVwap (p : SymbolProfile) : ℚ :=
  if p.recentTrades = [] then 0
  else
    let sumPv := (p.recentTrades.map fun e => e.2.1 * e.2.2).sum
    let sumV := (p.recentTrades.map fun e => e.2.2).sum
    if sumV = 0 then 0 else sumPv / sumV

/-- Add `qty` to the volume of `tick` in the ascending-key level list
(`*levels.entry(tick).or_insert(ZERO) += qty`). -/
def levelsAdd (tick : ℤ) (qty : ℚ) : List (ℤ × ℚ) → List (ℤ × ℚ)
  | [] => [(tick, qty)]
  | (t, v) :: rest =>
    if tick = t then (t, v + qty) :: rest
    else if tick < t then (tick, qty) :: (t, v) :: rest
    else (t, v) :: levelsAdd tick qty rest

/-- Look up the volume stored at a tick (`levels.get`). -/
def levelsGet (levels : List (ℤ × ℚ)) (tick : ℤ) : Option ℚ :=
  (levels.find? fun e => e.1 = tick).map fun e => e.2

/-- Rust `Iterator::max_by` keyed by the stored volume: of several maximal
entries it returns the LAST one in iteration order. -/
def maxByLast : List (ℤ × ℚ) → Option (ℤ × ℚ)
  | [] => none
  | x :: xs => some (xs.foldl (fun a y => if y.2 < a.2 then a else y) x)

/-- `SymbolProfile::find_hvn`: re-bucket the recent-trade window and take
its maximum-volume tick. -/
def SymbolProfile.findHvn (p : SymbolProfile) (tickSize : ℚ) : Option ℚ :=
  if p.recentTrades = [] then none
  else
    let tickVolumes := p.recentTrades.foldl
      (fun acc e => levelsAdd (price_to_tick e.2.1 tickSize) e.2.2 acc) []
    (maxByLast tickVolumes).map fun e => tick_to_price e.1 tickSize

/-- `types.rs`, `VolumeProfileSnapshot`. -/
structure VolumeProfileSnapshot where
  symbol : String
  poc : ℚ
  vah : ℚ
  val : ℚ
  totalVolume : ℚ
  sessionHigh : ℚ
  sessionLow : ℚ
  vwap : ℚ
  hvn : Option ℚ
  timestamp : ℤ
deriving DecidableEq, Repr

/-- The value-area expansion loop of `compute_snapshot` (`while area_volume <
target_volume { ... }`), with a fuel bound on the number of iterations.
Each Rust iteration that does not exit extends one of the bounds to a fresh
populated tick, so `ticks.length + 1` fuel always reaches the loop's own
exit; the result is `(va_low_tick, va_high_tick)`. -/
def vaLoop (levels : List (ℤ × ℚ)) (ticks : List ℤ) (target : ℚ) :
    ℕ → ℚ → ℤ → ℤ → ℤ × ℤ
  | 0, _, lo, hi => (lo, hi)
  | fuel + 1, area, lo, hi =>
    if area < target then
      -- `if above.is_none() && below.is_none() { break }` then
      -- `if above_vol >= below_vol { prefer above } else { prefer below }`,
      -- each side falling through to the other when absent: with only one
      -- side populated that side is taken whatever the comparison says, so
      -- the body is this four-way case split.
      match next_tick_above ticks hi, next_tick_below ticks lo with
      | none, none => (lo, hi)
      | some t, none =>
        vaLoop levels ticks target fuel (area + (levelsGet levels t).getD 0) lo t
      | none, some t =>
        vaLoop levels ticks target fuel (area + (levelsGet levels t).getD 0) t hi
      | some ta, some tb =>
        if (levelsGet levels tb).getD 0 ≤ (levelsGet levels ta).getD 0 then
          vaLoop levels ticks target fuel (area + (levelsGet levels ta).getD 0) lo ta
        else
          vaLoop levels ticks target fuel (area + (levelsGet levels tb).getD 0) tb hi
    else (lo, hi)

/-- `VolumeProfiler::compute_snapshot` for one symbol's profile.  Returns
`none` exactly when the level map is empty (where the Rust code would panic
on `unwrap`; its caller guarantees at least three populated levels). -/
def computeSnapshot (valueAreaPct tickSize : ℚ) (profile : SymbolProfile)
    (symbol : String) (timestamp : ℤ) : Option VolumeProfileSnapshot :=
  (maxByLast profile.levels).map fun pocEntry =>
    let pocTick := pocEntry.1
    let targetVolume := profile.totalVolume * valueAreaPct
    let areaVolume := (levelsGet profile.levels pocTick).getD 0
    let ticks := profile.levels.map fun e => e.1
    let bounds := vaLoop profile.levels ticks targetVolume (ticks.length + 1)
      areaVolume pocTick pocTick
    { symbol := symbol
      poc := tick_to_price pocTick tickSize
      vah := tick_to_price bounds.2 tickSize
      val := tick_to_price bounds.1 tickSize
      totalVolume := profile.totalVolume
      sessionHigh := profile.sessionHigh
      sessionLow := profile.sessionLow
      vwap := profile.calculateVwap
      hvn := profile.findHvn tickSize
      timestamp := timestamp }

/-- `volume_profile.rs`, `VolumeProfiler`.  The per-symbol maps are modelled
pointwise. -/
structure VolumeProfiler where
  tickSize : ℚ
  valueAreaPct : ℚ
  sessionResetHours : ℤ
  profiles : String → Option SymbolProfile
  symbolTickSizes : String → Option ℚ

/-- `VolumeProfiler::tick_size_for`. -/
def VolumeProfiler.tickSizeFor (vp : VolumeProfiler) (symbol : String) : ℚ :=
  (vp.symbolTickSizes symbol).getD vp.tickSize

/-- The profile-mutation pipeline of `VolumeProfiler::process_trade`:
optional session reset, level/total update, recent-trade push and cleanup,
session high/low update. -/
def VolumeProfiler.profileAfterTrade (vp : VolumeProfiler) (trade : NormalizedTrade) :
    SymbolProfile :=
  let symTick := vp.tickSizeFor trade.symbol
  let profile := (vp.profiles trade.symbol).getD (SymbolProfile.new trade.timestamp)
  -- session reset (Duration::try_hours(h) = h * 3_600_000 ms)
  let profile :=
    if vp.sessionResetHours * 3600000 < trade.timestamp - profile.sessionStart then
      profile.reset trade.timestamp
    else profile
  let tickIndex := price_to_tick trade.price symTick
  let profile := { profile with
    levels := levelsAdd tickIndex trade.quantity profile.levels
    totalVolume := profile.totalVolume + trade.quantity }
  let profile := { profile with
    recentTrades := profile.recentTrades ++ [(trade.timestamp, trade.price, trade.quantity)] }
  let profile := profile.cleanOldTrades trade.timestamp
  let profile := { profile with
    sessionHigh := if profile.sessionHigh < trade.price then trade.price else profile.sessionHigh }
  { profile with
    sessionLow :=
      if trade.price < profile.sessionLow ∨ profile.sessionLow = decimalMax then trade.price
      else profile.sessionLow }

/-- `VolumeProfiler::process_trade`.  Returns the updated profiler and the
snapshot, if at least three populated levels exist. -/
def VolumeProfiler.process_trade (vp : VolumeProfiler) (trade : NormalizedTrade) :
    VolumeProfiler × Option VolumeProfileSnapshot :=
  let profile := vp.profileAfterTrade trade
  let vp' := { vp with
    profiles := fun s => if s = trade.symbol then some profile else vp.profiles s }
  if profile.levels.length < 3 then (vp', none)
  else (vp', computeSnapshot vp.valueAreaPct (vp.tickSizeFor trade.symbol) profile
    trade.symbol trade.timestamp)

/-- Run the profiler over a trade sequence, collecting every emitted
snapshot in order. -/
def VolumeProfiler.processTrades (vp : VolumeProfiler) :
    List NormalizedTrade → VolumeProfiler × List VolumeProfileSnapshot
  | [] => (vp, [])
  | t :: ts =>
    let (vp', out) := vp.process_trade t
    let (vp'', snaps) := vp'.processTrades ts
    (vp'', out.toList ++ snaps)

/-! ## Order-flow tracker (`order_flow.rs`): absorption detection -/

/-- The body of the `for level in bar.footprint.values()` loop of
`OrderFlowTracker::detect_absorption`, with its early returns. -/
def detectAbsorptionGo (ratio maxPd pd : ℚ) : List FootprintLevel → Bool × Option Side
  | [] => (false, none)
  | lv :: rest =>
    if lv.bidVolume + lv.askVolume = 0 then detectAbsorptionGo ratio maxPd pd rest
    else if 0 < lv.bidVolume ∧ 0 < lv.askVolume then
      if ratio < lv.bidVolume / lv.askVolume ∧ pd ≤ maxPd then (true, some .Sell)
      else if ratio < lv.askVolume / lv.bidVolume ∧ pd ≤ maxPd then (true, some .Buy)
      else detectAbsorptionGo ratio maxPd pd rest
    else detectAbsorptionGo ratio maxPd pd rest

/-- `OrderFlowTracker::detect_absorption`; `ratio` and `maxPd` are the
tracker's `absorption_delta_ratio` and `max_price_delta_ticks` fields.
The footprint values are visited in the map's stored (ascending byte-wise
string key) order. -/
def detect_absorption (ratio maxPd : ℚ) (bar : RangeBar) : Bool × Option Side :=
  let priceDelta := bar.closePrice - bar.openPrice
  detectAbsorptionGo ratio maxPd |priceDelta| (bar.footprint.map fun e => e.2)

/-- Per-level absorption classifier as the spec sentence describes one scan
step: Sell absorption when `bid/ask` exceeds the ratio (price delta within
bound), Buy absorption for the reciprocal, checked in that order. -/
def absorptionLevelClass (ratio maxPd pd : ℚ) (lv : FootprintLevel) : Option Side :=
  if 0 < lv.bidVolume ∧ 0 < lv.askVolume then
    if ratio < lv.bidVolume / lv.askVolume ∧ pd ≤ maxPd then some .Sell
    else if ratio < lv.askVolume / lv.bidVolume ∧ pd ≤ maxPd then some .Buy
    else none
  else none

/-- Numeric value (in price tenths) encoded by a footprint bucket key, the
inverse of `price_key`. -/
def keyTenths (k : BucketKey) : ℤ :=
  let digitsVal : List ℕ → ℕ := fun l => l.foldl (fun a d => 10 * a + (d - 48)) 0
  let mag : BucketKey → ℕ := fun l =>
    10 * digitsVal (l.takeWhile fun b => b ≠ 46) + digitsVal ((l.dropWhile fun b => b ≠ 46).drop 1)
  match k with
  | 45 :: rest => -(mag rest : ℤ)
  | _ => (mag k : ℤ)

/-- Insertion sort by a boolean `≤`-style comparator (stable). -/
def insertionSortBy (le : α → α → Bool) : List α → List α
  | [] => []
  | x :: xs =>
    let rec ins (x : α) : List α → List α
      | [] => [x]
      | y :: ys => if le x y then x :: y :: ys else y :: ins x ys
    ins x (insertionSortBy le xs)

/-- The absorption scan as claimed by the spec: visit the footprint levels
in ascending order of the NUMERIC price bucket they denote (rather than in
the map's string-key order). -/
def detectAbsorptionNumericAsc (ratio maxPd : ℚ) (bar : RangeBar) : Bool × Option Side :=
  let priceDelta := bar.closePrice - bar.openPrice
  let sorted := insertionSortBy (fun a b => keyTenths a.1 ≤ keyTenths b.1) bar.footprint
  detectAbsorptionGo ratio maxPd |priceDelta| (sorted.map fun e => e.2)

/-! ## Local order book (`simulator/order_book.rs`) -/

/-- `types.rs`, `DepthLevel`. -/
structure DepthLevel where
  price : ℚ
  quantity : ℚ
deriving DecidableEq, Repr

/-- `types.rs`, `DepthUpdate`. -/
structure DepthUpdate where
  symbol : String
  bids : List DepthLevel
  asks : List DepthLevel
  timestamp : ℤ
deriving DecidableEq, Repr

/-- One side of the book: the `BTreeMap<Decimal, Decimal>` (price → qty) as
its ascending-key association list. -/
abbrev BookSide := List (ℚ × ℚ)

/-- `BTreeMap::insert` (overwrite), keeping keys ascending. -/
def sideInsert (price qty : ℚ) : BookSide → BookSide
  | [] => [(price, qty)]
  | (p, q) :: rest =>
    if price = p then (p, qty) :: rest
    else if price < p then (price, qty) :: (p, q) :: rest
    else (p, q) :: sideInsert price qty rest

/-- `BTreeMap::remove`. -/
def sideErase (price : ℚ) : BookSide → BookSide
  | [] => []
  | (p, q) :: rest => if price = p then rest else (p, q) :: sideErase price rest

/-- The per-level loop of `LocalOrderBook::update` on one side: qty 0
deletes, any other qty overwrites. -/
def applyDeltas (side : BookSide) (levels : List DepthLevel) : BookSide :=
  levels.foldl
    (fun m lv => if lv.quantity = 0 then sideErase lv.price m else sideInsert lv.price lv.quantity m)
    side

/-- `simulator/order_book.rs`, `LocalOrderBook`. -/
structure LocalOrderBook where
  symbol : String
  bids : BookSide
  asks : BookSide
  maxDepth : ℕ
deriving DecidableEq, Repr

/-- `LocalOrderBook::new`. -/
def LocalOrderBook.new (symbol : String) (maxDepth : ℕ) : LocalOrderBook :=
  { symbol := symbol, bids := [], asks := [], maxDepth := maxDepth }

/-- `LocalOrderBook::update`: apply the deltas of both sides, then trim to
`max_depth` by evicting the lowest bids / highest asks.  On the ascending
lists the two trim loops are `drop (len - max_depth)` and `take max_depth`. -/
def LocalOrderBook.update (b : LocalOrderBook) (d : DepthUpdate) : LocalOrderBook :=
  let bids := applyDeltas b.bids d.bids
  let asks := applyDeltas b.asks d.asks
  { b with bids := bids.drop (bids.length - b.maxDepth), asks := asks.take b.maxDepth }

/-! ## Positions (`types.rs`, `simulator/position.rs`) -/

/-- `types.rs`, `SetupType`. -/
inductive SetupType where
  | AAA
  | MomentumSqueeze
  | AbsorptionReversal
  | AdvancedOrderFlow
deriving DecidableEq, Repr

/-- `types.rs`, `MarginType`. -/
inductive MarginType where
  | Isolated
  | Cross
deriving DecidableEq, Repr

/-- `types.rs`, `PositionStatus`. -/
inductive PositionStatus where
  | Open
  | Closed
  | Liquidated
deriving DecidableEq, Repr

/-- `types.rs`, `TradeSignal` (confidence and entry features omitted; no
verified statement consumes them). -/
structure TradeSignal where
  id : String
  symbol : String
  side : Side
  setup : SetupType
  entryPrice : ℚ
  stopLoss : ℚ
  takeProfit : ℚ
  timestamp : ℤ
deriving DecidableEq, Repr

/-- `types.rs`, `Position`, restricted to the fields `simulator/position.rs`
constructs and the verified statements consume. -/
structure Position where
  id : String
  symbol : String
  side : Side
  entryPrice : ℚ
  quantity : ℚ
  stopLoss : ℚ
  takeProfit : ℚ
  setup : SetupType
  status : PositionStatus
  pnl : ℚ
  entryTime : ℤ
  exitTime : Option ℤ
  exitPrice : Option ℚ
  breakEvenMoved : Bool
  leverage : ℚ
  marginType : MarginType
  liquidationPrice : ℚ
  unrealizedPnl : ℚ
  initialMargin : ℚ
  maintenanceMargin : ℚ
  tp1Filled : Bool
  tp1Price : Option ℚ
  tp2Price : Option ℚ
  originalQuantity : ℚ
deriving DecidableEq, Repr

/-- `calculate_liquidation_price` from `simulator/position.rs`. -/
def calculate_liquidation_price (side : Side) (entryPrice leverage
    maintenanceMarginRate takerFee : ℚ) : ℚ :=
  let feeCost := takerFee * 2
  let leverageInv := 1 / leverage
  match side with
  | .Buy =>
    let adjustment := leverageInv - maintenanceMarginRate - feeCost
    entryPrice * (1 - adjustment)
  | .Sell =>
    let adjustment := leverageInv - maintenanceMarginRate - feeCost
    entryPrice * (1 + adjustment)

/-- `calculate_initial_margin`. -/
def calculate_initial_margin (entryPrice quantity leverage : ℚ) : ℚ :=
  entryPrice * quantity / leverage

/-- `calculate_maintenance_margin`. -/
def calculate_maintenance_margin (entryPrice quantity maintenanceMarginRate : ℚ) : ℚ :=
  entryPrice * quantity * maintenanceMarginRate

/-- `Position::should_liquidate`. -/
def Position.shouldLiquidate (p : Position) (markPrice : ℚ) : Bool :=
  match p.side with
  | .Buy => markPrice ≤ p.liquidationPrice
  | .Sell => p.liquidationPrice ≤ markPrice

/-- `PositionManager::open_position`.  `Uuid::new_v4()` and `Utc::now()` are
modelled as the caller-supplied `id` and `now`. -/
def open_position (signal : TradeSignal) (quantity leverage : ℚ)
    (marginType : MarginType) (maintenanceMarginRate takerFee : ℚ)
    (id : String) (now : ℤ) : Position :=
  { id := id
    symbol := signal.symbol
    side := signal.side
    entryPrice := signal.entryPrice
    quantity := quantity
    stopLoss := signal.stopLoss
    takeProfit := signal.takeProfit
    setup := signal.setup
    status := .Open
    pnl := 0
    entryTime := now
    exitTime := none
    exitPrice := none
    breakEvenMoved := false
    leverage := leverage
    marginType := marginType
    liquidationPrice := calculate_liquidation_price signal.side signal.entryPrice leverage
      maintenanceMarginRate takerFee
    unrealizedPnl := 0
    initialMargin := calculate_initial_margin signal.entryPrice quantity leverage
    maintenanceMargin := calculate_maintenance_margin signal.entryPrice quantity
      maintenanceMarginRate
    tp1Filled := false
    tp1Price := none
    tp2Price := none
    originalQuantity := quantity }

/-- The mutation `close_position` performs on the found position:
`pnl += net`, set exit price/time, status `Closed`. -/
def closePosMutation (p : Position) (exitPrice feeRate : ℚ) (now : ℤ) : Position :=
  let rawPnl := match p.side with
    | .Buy => (exitPrice - p.entryPrice) * p.quantity
    | .Sell => (p.entryPrice - exitPrice) * p.quantity
  let notional := p.entryPrice * p.quantity + exitPrice * p.quantity
  let fees := notional * feeRate
  let netPnl := rawPnl - fees
  { p with
    pnl := p.pnl + netPnl
    exitPrice := some exitPrice
    exitTime := some now
    status := .Closed }

/-- The mutation `close_partial` performs on the found position (only
reached when `close_quantity < quantity`): reduce quantity, accumulate the
partial pnl; also returns that partial pnl. -/
def closePartialMutation (p : Position) (closeQuantity exitPrice feeRate : ℚ) :
    Position × ℚ :=
  let rawPnl := match p.side with
    | .Buy => (exitPrice - p.entryPrice) * closeQuantity
    | .Sell => (p.entryPrice - exitPrice) * closeQuantity
  let notional := p.entryPrice * closeQuantity + exitPrice * closeQuantity
  let fees := notional * feeRate
  let partialPnl := rawPnl - fees
  ({ p with quantity := p.quantity - closeQuantity, pnl := p.pnl + partialPnl }, partialPnl)

/-- The mutation `check_liquidations` performs on a liquidated position:
close at the stored liquidation price; `pnl` is ASSIGNED (not added). -/
def liquidateMutation (p : Position) (feeRate : ℚ) (now : ℤ) : Position :=
  let liquidationPrice := p.liquidationPrice
  let rawPnl := match p.side with
    | .Buy => (liquidationPrice - p.entryPrice) * p.quantity
    | .Sell => (p.entryPrice - liquidationPrice) * p.quantity
  let notional := p.entryPrice * p.quantity + liquidationPrice * p.quantity
  let fees := notional * feeRate
  let netPnl := rawPnl - fees
  { p with
    pnl := netPnl
    exitPrice := some liquidationPrice
    exitTime := some now
    status := .Liquidated }

/-- `iter_mut().find(|p| p.id == id && p.status == Open)` followed by a
mutation `f`: rewrite the first open position with that id, returning the
updated list and the mutated position (`close_position` returns its clone,
`close_partial` its pnl — both recovered from this). -/
def mutateFirstOpen (pid : String) (f : Position → Position) :
    List Position → List Position × Option Position
  | [] => ([], none)
  | p :: rest =>
    if p.id = pid ∧ p.status = .Open then
      let p' := f p
      (p' :: rest, some p')
    else
      let (rest', r) := mutateFirstOpen pid f rest
      (p :: rest', r)

/-- `PositionManager::close_position` on the manager's position list. -/
def close_positionM (ps : List Position) (pid : String) (exitPrice feeRate : ℚ)
    (now : ℤ) : List Position × Option Position :=
  mutateFirstOpen pid (fun p => closePosMutation p exitPrice feeRate now) ps

/-- `PositionManager::close_partial` on the manager's position list: `none`
(and no mutation) when the position is missing or `close_quantity ≥
quantity`. -/
def close_partialM (ps : List Position) (pid : String) (closeQuantity exitPrice
    feeRate : ℚ) : List Position × Option ℚ :=
  match ps.find? fun p => p.id = pid ∧ p.status = PositionStatus.Open with
  | none => (ps, none)
  | some p =>
    if p.quantity ≤ closeQuantity then (ps, none)
    else
      ((mutateFirstOpen pid
          (fun q => (closePartialMutation q closeQuantity exitPrice feeRate).1) ps).1,
        some (closePartialMutation p closeQuantity exitPrice feeRate).2)

/-- `PositionManager::check_liquidations`: collect the ids of the open
positions of the symbol whose mark crossed their liquidation price, then
liquidate each in turn; returns the updated list and the liquidated
positions. -/
def check_liquidationsM (ps : List Position) (symbol : String) (markPrice feeRate : ℚ)
    (now : ℤ) : List Position × List Position :=
  let ids := (ps.filter fun p =>
    p.status = PositionStatus.Open ∧ p.symbol = symbol ∧ p.shouldLiquidate markPrice).map
    fun p => p.id
  ids.foldl
    (fun acc pid =>
      let (ps', r) := mutateFirstOpen pid (fun p => liquidateMutation p feeRate now) acc.1
      (ps', acc.2 ++ r.toList))
    (ps, [])

/-- `PositionManager::move_stop_to_break_even` (mutation on the found open
position). -/
def moveStopMutation (p : Position) (stopPrice : ℚ) : Position :=
  { p with stopLoss := stopPrice, breakEvenMoved := true }

/-- `PositionManager::mark_tp1_filled` (mutation on the found open
position). -/
def markTp1Mutation (p : Position) (stopPrice : ℚ) : Position :=
  { p with tp1Filled := true, stopLoss := stopPrice, breakEvenMoved := true }

/-! ## Risk manager (`risk.rs`) -/

/-- `BTreeMap<String, Vec<String>>` lookup (symbol → open position ids),
modelled on an association list with pointwise-equivalent lookup. -/
def idxLookup (idx : List (String × List String)) (symbol : String) :
    Option (List String) :=
  (idx.find? fun e => e.1 = symbol).map fun e => e.2

/-- `open_positions.entry(symbol).or_insert_with(Vec::new).push(id)`. -/
def idxRegister (symbol id : String) : List (String × List String) →
    List (String × List String)
  | [] => [(symbol, [id])]
  | (s, ids) :: rest =>
    if s = symbol then (s, ids ++ [id]) :: rest else (s, ids) :: idxRegister symbol id rest

/-- `if let Some(v) = open_positions.get_mut(symbol) { v.retain(|x| x != id) }`. -/
def idxRemove (symbol id : String) : List (String × List String) →
    List (String × List String)
  | [] => []
  | (s, ids) :: rest =>
    if s = symbol then (s, ids.filter fun x => x ≠ id) :: rest
    else (s, ids) :: idxRemove symbol id rest

/-- `risk.rs`, `RiskManager` (the fields the verified statements consume;
sizing-only fields are omitted). -/
structure RiskManager where
  balance : ℚ
  dailyPnl : ℚ
  dailyLimit : ℚ
  maxConcurrent : ℕ
  breakEvenTicks : ℚ
  openIndex : List (String × List String)
  dailyHalted : Bool
deriving DecidableEq, Repr

/-- `RiskManager::can_trade`: halted, concurrency cap, then
one-position-per-symbol. -/
def can_trade (rm : RiskManager) (signal : TradeSignal) : Bool :=
  if rm.dailyHalted then false
  else
    let totalOpen := (rm.openIndex.map fun e => e.2.length).sum
    if rm.maxConcurrent ≤ totalOpen then false
    else
      match idxLookup rm.openIndex signal.symbol with
      | some ids => ids.isEmpty
      | none => true

/-- `RiskManager::register_position`. -/
def register_position (rm : RiskManager) (p : Position) : RiskManager :=
  { rm with openIndex := idxRegister p.symbol p.id rm.openIndex }

/-- `RiskManager::close_position`: drop the id from the per-symbol index,
add the pnl to balance and daily pnl, halt when the daily loss limit is
exceeded. -/
def riskClosePosition (rm : RiskManager) (p : Position) : RiskManager :=
  let dailyPnl := rm.dailyPnl + p.pnl
  { rm with
    openIndex := idxRemove p.symbol p.id rm.openIndex
    dailyPnl := dailyPnl
    balance := rm.balance + p.pnl
    dailyHalted := rm.dailyHalted ∨ dailyPnl < -rm.dailyLimit }

/-- `RiskManager::should_move_to_break_even`: false when already moved,
otherwise exactly the favorable-displacement test against
`break_even_ticks`. -/
def should_move_to_break_even (rm : RiskManager) (position : Position)
    (currentPrice : ℚ) : Bool :=
  if position.breakEvenMoved then false
  else
    let favorableMove := match position.side with
      | .Buy => currentPrice - position.entryPrice
      | .Sell => position.entryPrice - currentPrice
    rm.breakEvenTicks ≤ favorableMove

/-- The break-even predicate the spec sentence describes: favorable
displacement of at least `break_even_ticks` AND held at least
`break_even_min_hold_secs` (timestamps in ms) AND realized risk-multiple
(displacement over the entry-to-initial-stop distance) at least
`break_even_trigger_rr`. -/
def specShouldMoveToBreakEven (ticks minHoldSecs triggerRR : ℚ) (position : Position)
    (currentPrice : ℚ) (t : ℤ) : Bool :=
  if position.breakEvenMoved then false
  else
    let favorableMove := match position.side with
      | .Buy => currentPrice - position.entryPrice
      | .Sell => position.entryPrice - currentPrice
    let initialRisk := |position.entryPrice - position.stopLoss|
    ticks ≤ favorableMove ∧ minHoldSecs * 1000 ≤ ((t - position.entryTime : ℤ) : ℚ) ∧
      (initialRisk ≠ 0 ∧ triggerRR ≤ favorableMove / initialRisk)

/-! ## Simulator engine state transitions (`simulator/engine.rs`)

The pipeline state the concurrency claims quantify over: the position
manager's list together with the risk manager.  Each constructor of
`EngineStep` is one primitive mutation the engine performs on this pair;
every engine code path (signal execution, liquidation sweep, staged exits,
standard exits, break-even moves, risk notification) is a sequence of these
primitives in the order the engine runs them. -/

structure EngineState where
  positions : List Position
  risk : RiskManager

/-- One primitive mutation of `SimulatorEngine` on positions + risk. -/
inductive EngineStep : EngineState → EngineState → Prop
  /-- `execute_signal` acceptance path: all gates passed (`can_trade`
  among them), `open_position` pushes the new position, then
  `register_position`.  The freshness hypothesis models `Uuid::new_v4`. -/
  | openSignal (s : EngineState) (signal : TradeSignal) (quantity leverage : ℚ)
      (marginType : MarginType) (mmr takerFee : ℚ) (id : String) (now : ℤ)
      (hct : can_trade s.risk signal = true)
      (hfresh : id ∉ s.positions.map fun p => p.id) :
      EngineStep s
        ⟨s.positions ++ [open_position signal quantity leverage marginType mmr takerFee id now],
          register_position s.risk
            (open_position signal quantity leverage marginType mmr takerFee id now)⟩
  /-- `close_position` on the manager (standard exits, TP2, soft stop). -/
  | closePos (s : EngineState) (pid : String) (exitPrice feeRate : ℚ) (now : ℤ) :
      EngineStep s ⟨(close_positionM s.positions pid exitPrice feeRate now).1, s.risk⟩
  /-- one liquidation of the `check_liquidations` sweep. -/
  | liquidate (s : EngineState) (pid : String) (feeRate : ℚ) (now : ℤ) :
      EngineStep s
        ⟨(mutateFirstOpen pid (fun p => liquidateMutation p feeRate now) s.positions).1, s.risk⟩
  /-- `close_partial` (TP1). -/
  | partialFill (s : EngineState) (pid : String) (closeQuantity exitPrice feeRate : ℚ) :
      EngineStep s ⟨(close_partialM s.positions pid closeQuantity exitPrice feeRate).1, s.risk⟩
  /-- `move_stop_to_break_even`. -/
  | moveStop (s : EngineState) (pid : String) (stopPrice : ℚ) :
      EngineStep s
        ⟨(mutateFirstOpen pid (fun p => moveStopMutation p stopPrice) s.positions).1, s.risk⟩
  /-- `mark_tp1_filled`. -/
  | markTp1 (s : EngineState) (pid : String) (stopPrice : ℚ) :
      EngineStep s
        ⟨(mutateFirstOpen pid (fun p => markTp1Mutation p stopPrice) s.positions).1, s.risk⟩
  /-- the engine reports a position it just closed/liquidated back to the
  risk manager (`risk_manager.close_position(&position)`). -/
  | reportClosed (s : EngineState) (p : Position)
      (hmem : p ∈ s.positions) (hst : p.status ≠ PositionStatus.Open) :
      EngineStep s ⟨s.positions, riskClosePosition s.risk p⟩

/-- The engine's start state: no positions, empty index, not halted
(`RiskManager::new` + `PositionManager::new`). -/
def initEngine (balance dailyLimit breakEvenTicks : ℚ) (maxConcurrent : ℕ) : EngineState :=
  { positions := []
    risk :=
      { balance := balance
        dailyPnl := 0
        dailyLimit := dailyLimit
        maxConcurrent := maxConcurrent
        breakEvenTicks := breakEvenTicks
        openIndex := []
        dailyHalted := false } }

/-- States the simulator pipeline can reach from its start state. -/
def EngineReachable (balance dailyLimit breakEvenTicks : ℚ) (maxConcurrent : ℕ)
    (s : EngineState) : Prop :=
  Relation.ReflTransGen EngineStep (initEngine balance dailyLimit breakEvenTicks maxConcurrent) s

/-- The tick of maximum accumulated volume, breaking ties toward the
EARLIEST entry in ascending-key iteration order (the selection rule the
spec sentence about the POC describes). -/
def firstMaxVolumeTick? (levels : List (ℤ × ℚ)) : Option ℤ :=
  (levels.foldl
    (fun a y => match a with
      | none => some y
      | some x => if x.2 < y.2 then some y else some x)
    none).map fun e => e.1

/-! ## Concrete scenarios used by witnesses and counterexamples -/

/-- Scenario S1 of the spec: qty-1 buys at 100.0, 100.4, 100.9, 101.05. -/
def s1Trades : List NormalizedTrade :=
  [⟨"btcusdt", 100, 1, .Buy, 0, 1⟩,
   ⟨"btcusdt", 100.4, 1, .Buy, 1, 2⟩,
   ⟨"btcusdt", 100.9, 1, .Buy, 2, 3⟩,
   ⟨"btcusdt", 101.05, 1, .Buy, 3, 4⟩]

/-- Scenario S3 of the spec: Buy signal at entry 100. -/
def s3Signal : TradeSignal :=
  ⟨"sig3", "btcusdt", .Buy, .AdvancedOrderFlow, 100, 99, 102, 0⟩

/-- The S3 position: qty 1, leverage 100, maintenance margin rate 0.004,
taker fee 0.0004. -/
def s3Position : Position :=
  open_position s3Signal 1 100 .Isolated 0.004 0.0004 "pos3" 0

/-- A qty-2 position used to exercise TP1-then-liquidation accounting. -/
def c10Position : Position :=
  open_position s3Signal 2 100 .Isolated 0.004 0.0004 "pos10" 0

/-- `c10Position` after a TP1 partial close of qty 1 at price 101. -/
def c10AfterTp1 : List Position :=
  (close_partialM [c10Position] "pos10" 1 101 0.0004).1

/-- The liquidated position produced from `c10AfterTp1` at mark 99.48: the
liquidation leg's pnl overwrote the TP1 pnl of 0.9196. -/
def c10Liquidated : Position :=
  { id := "pos10"
    symbol := "btcusdt"
    side := .Buy
    entryPrice := 100
    quantity := 1
    stopLoss := 99
    takeProfit := 102
    setup := .AdvancedOrderFlow
    status := .Liquidated
    pnl := -0.599792
    entryTime := 0
    exitTime := some 5
    exitPrice := some 99.48
    breakEvenMoved := false
    leverage := 100
    marginType := .Isolated
    liquidationPrice := 99.48
    unrealizedPnl := 0
    initialMargin := 2
    maintenanceMargin := 0.8
    tp1Filled := false
    tp1Price := none
    tp2Price := none
    originalQuantity := 2 }

/-- A risk manager with `break_even_ticks = 5` (and break-even config
`min_hold_secs = 30`, `trigger_rr = 1` on the spec side). -/
def c6Risk : RiskManager := ⟨10000, 0, 300, 3, 5, [], false⟩

/-- A Buy position at entry 100 with initial stop 90 (initial risk 10),
opened at t = 0. -/
def c6Position : Position :=
  open_position ⟨"sig6", "ethusdt", .Buy, .AAA, 100, 90, 120, 0⟩ 1 100 .Isolated 0.004 0.0004
    "pos6" 0

/-- Range size 0.6 for the absorption-scan scenario. -/
def c8RangeFor : String → ℚ := fun _ => 0.6

/-- Absorption-scan scenario: one bar built from buckets 99.5 (ask-heavy,
Buy-absorption pattern), 100.0 (bid-heavy, Sell-absorption pattern) and
the closing bucket 100.1.  Byte-wise, the string key "100.0" sorts BEFORE
"99.5", whereas numerically 99.5 is the lower bucket. -/
def c8Trades : List NormalizedTrade :=
  [⟨"solusdt", 99.5, 5, .Buy, 0, 1⟩,
   ⟨"solusdt", 99.5, 1, .Sell, 1, 2⟩,
   ⟨"solusdt", 100, 5, .Sell, 2, 3⟩,
   ⟨"solusdt", 100, 1, .Buy, 3, 4⟩,
   ⟨"solusdt", 100.1, 1, .Buy, 4, 5⟩]

/-- A footprint association list is in the `BTreeMap`'s canonical form:
keys strictly ascending in byte order. -/
def FootprintSorted (fp : List (BucketKey × FootprintLevel)) : Prop :=
  fp.Chain' fun a b => keyLtb a.1 b.1 = true

/-- Invariant of a bar under construction: side volumes sum to the total
volume, and the footprint map is in canonical form. -/
def BuildingBarInv (b : BuildingBar) : Prop :=
  b.buyVolume + b.sellVolume = b.volume ∧ FootprintSorted b.footprint

/-- Invariant of the whole builder: every stored symbol state carries the
configured range size of its symbol, and its in-progress bar satisfies
`BuildingBarInv`. -/
def BuilderInv (rb : RangeBarBuilder) : Prop :=
  ∀ sym st, rb.builders sym = some st →
    st.rangeSize = rb.rangeFor sym ∧ ∀ b, st.current = some b → BuildingBarInv b

/-- What holds of every bar the builder emits (relative to the range
configuration `rangeFor`). -/
def EmittedBarGood (rangeFor : String → ℚ) (bar : RangeBar) : Prop :=
  rangeFor bar.symbol ≤ bar.highPrice - bar.lowPrice ∧
    bar.buyVolume + bar.sellVolume = bar.volume ∧ FootprintSorted bar.footprint

/-- A level map is in the `BTreeMap`'s canonical form: tick keys strictly
ascending. -/
def LevelsSorted (levels : List (ℤ × ℚ)) : Prop :=
  levels.Chain' fun a b => a.1 < b.1

/-- Invariant of a symbol profile under tick size `ts`: canonical level map
whose keys all lie between the buckets of the session extremes. -/
def ProfileInv (ts : ℚ) (p : SymbolProfile) : Prop :=
  LevelsSorted p.levels ∧
  ∀ e ∈ p.levels, price_to_tick p.sessionLow ts ≤ e.1 ∧ e.1 ≤ price_to_tick p.sessionHigh ts

/-- Invariant of the whole profiler. -/
def ProfilerInv (vp : VolumeProfiler) : Prop :=
  ∀ sym profile, vp.profiles sym = some profile → ProfileInv (vp.tickSizeFor sym) profile

/-- Positive tick sizes (the claims' proviso). -/
def ProfilerWf (vp : VolumeProfiler) : Prop :=
  0 < vp.tickSize ∧ ∀ s t, vp.symbolTickSizes s = some t → 0 < t

/-- What holds of every snapshot the profiler emits: `val ≤ poc ≤ vah`, and
the poc lies between the floor BUCKET of the session low and the session
high (the session low itself can exceed the poc, which is quantized down). -/
def SnapGood (vp : VolumeProfiler) (snap : VolumeProfileSnapshot) : Prop :=
  snap.val ≤ snap.poc ∧ snap.poc ≤ snap.vah ∧
  tick_to_price (price_to_tick snap.sessionLow (vp.tickSizeFor snap.symbol))
      (vp.tickSizeFor snap.symbol) ≤ snap.poc ∧
  snap.poc ≤ snap.sessionHigh

/-- A fresh profiler (`VolumeProfiler::new` plus optional per-symbol tick
sizes installed by `set_tick_size`). -/
def initProfiler (tickSize valueAreaPct : ℚ) (sessionResetHours : ℤ)
    (symbolTickSizes : String → Option ℚ) : VolumeProfiler :=
  { tickSize := tickSize
    valueAreaPct := valueAreaPct
    sessionResetHours := sessionResetHours
    profiles := fun _ => none
    symbolTickSizes := symbolTickSizes }

/-- Profiler with tick size 1 and 70% value area for the POC scenarios. -/
def c5Profiler : VolumeProfiler := initProfiler 1 0.7 8 fun _ => none

/-- POC tie scenario: volume 3 at tick 5 and at tick 7, volume 1 at tick 8. -/
def c5Trades : List NormalizedTrade :=
  [⟨"adausdt", 5, 3, .Buy, 0, 1⟩,
   ⟨"adausdt", 7, 3, .Buy, 1, 2⟩,
   ⟨"adausdt", 8, 1, .Buy, 2, 3⟩]

/-- Session-low scenario: the dominant volume trades at 5.9, which buckets
to tick 5, so the snapshot poc (5) falls below the session low (5.9). -/
def c4Trades : List NormalizedTrade :=
  [⟨"xrpusdt", 5.9, 10, .Buy, 0, 1⟩,
   ⟨"xrpusdt", 7.1, 1, .Buy, 1, 2⟩,
   ⟨"xrpusdt", 8.1, 1, .Buy, 2, 3⟩]

/-- The symbol profile reached after the three `c5Trades`: ticks 5 and 7
tie at volume 3. -/
def c5Profile : SymbolProfile :=
  { levels := [(5, 3), (7, 3), (8, 1)]
    sessionStart := 0
    totalVolume := 12
    sessionHigh := 8
    sessionLow := 5
    recentTrades := [] }

/-- The snapshot `compute_snapshot` produces from `c5Profile` (the tie
resolves to tick 7, the higher one). -/
def c5Snapshot : VolumeProfileSnapshot :=
  { symbol := "adausdt"
    poc := 7
    vah := 8
    val := 5
    totalVolume := 12
    sessionHigh := 8
    sessionLow := 5
    vwap := 0
    hvn := none
    timestamp := 2 }

/-- The snapshot emitted by the third `c4Trades` trade. -/
def c4RunSnapshot : VolumeProfileSnapshot :=
  { symbol := "xrpusdt"
    poc := 5
    vah := 5
    val := 5
    totalVolume := 12
    sessionHigh := 8.1
    sessionLow := 5.9
    vwap := 371/60
    hvn := some 5
    timestamp := 2 }

/-- The snapshot emitted by the third `c5Trades` trade. -/
def c5RunSnapshot : VolumeProfileSnapshot :=
  { symbol := "adausdt"
    poc := 7
    vah := 7
    val := 5
    totalVolume := 7
    sessionHigh := 8
    sessionLow := 5
    vwap := 44/7
    hvn := some 7
    timestamp := 2 }

/-- The stored profile after the three `c5Trades`. -/
def c5FinalProfile : SymbolProfile :=
  { levels := [(5, 3), (7, 3), (8, 1)]
    sessionStart := 0
    totalVolume := 7
    sessionHigh := 8
    sessionLow := 5
    recentTrades := [(0, 5, 3), (1, 7, 3), (2, 8, 1)] }

/-- Pointwise relation between a position and its image under one of the
manager's mutations: id and symbol are preserved, and openness is never
created (an open image comes from an open original). -/
def PosPres (p q : Position) : Prop :=
  q.id = p.id ∧ q.symbol = p.symbol ∧
    (q.status = PositionStatus.Open → p.status = PositionStatus.Open)

/-- Inductive invariant of the engine state: position ids are unique, every
open position is indexed by the risk manager under its symbol, and no two
open positions share a symbol. -/
def EngineInv (s : EngineState) : Prop :=
  (s.positions.map fun p => p.id).Nodup ∧
  (∀ p ∈ s.positions, p.status = PositionStatus.Open →
    ∃ ids, idxLookup s.risk.openIndex p.symbol = some ids ∧ p.id ∈ ids) ∧
  s.positions.Pairwise fun p q =>
    p.status = PositionStatus.Open → q.status = PositionStatus.Open → p.symbol ≠ q.symbol

/-- A Buy signal on btcusdt for the engine-invariant witness. -/
def c7Signal : TradeSignal := ⟨"sig7", "btcusdt", .Buy, .AAA, 100, 99, 102, 0⟩

/-- A second signal on the same symbol, to be rejected. -/
def c7Signal2 : TradeSignal := ⟨"sig7b", "btcusdt", .Sell, .AAA, 100, 101, 98, 1⟩

/-- The position the engine opens for `c7Signal`. -/
def c7Pos : Position := open_position c7Signal 1 100 .Isolated 0.004 0.0004 "pos7" 0

/-- The engine state after accepting `c7Signal` from the start state. -/
def c7State : EngineState :=
  { positions := [c7Pos]
    risk :=
      { balance := 10000
        dailyPnl := 0
        dailyLimit := 300
        maxConcurrent := 2
        breakEvenTicks := 5
        openIndex := [("btcusdt", ["pos7"])]
        dailyHalted := false } }

/-! ## Order-book observation functions and C9 scenario -/

/-- Observation function: association-list lookup of a price on a book side. -/
def sideLookup (p : ℚ) : BookSide → Option ℚ
  | [] => none
  | e :: rest => if e.1 = p then some e.2 else sideLookup p rest

/-- Keys strictly ascending: the `BTreeMap` representation invariant. -/
def SideSorted (m : BookSide) : Prop :=
  m.Pairwise fun e f => e.1 < f.1

/-- The net effect of a delta list on the value stored at price `p`. -/
def deltaFinal (p : ℚ) (L : List DepthLevel) (o : Option ℚ) : Option ℚ :=
  L.foldl
    (fun o lv => if lv.price = p then (if lv.quantity = 0 then none else some lv.quantity) else o)
    o

def c9Book : LocalOrderBook :=
  { symbol := "btcusdt", bids := [(99, 2), (100, 1)], asks := [(101, 1), (102, 3)],
    maxDepth := 2 }

def c9Update : DepthUpdate :=
  { symbol := "btcusdt",
    bids := [⟨98, 5⟩, ⟨100, 0⟩, ⟨99.5, 4⟩],
    asks := [⟨101, 0⟩, ⟨103, 2⟩, ⟨101.5, 1⟩],
    timestamp := 1 }

/-! # Theorems -/

/-- C2: a Buy position opened at entry 100 with qty 1 under leverage 100,
maintenance margin rate 0.004 and taker fee 0.0004 gets liquidation price
`entry · (1 - (1/leverage - mmr - 2·taker_fee)) = 99.48`; the first trade at
mark 99.48 liquidates it (status `Liquidated`, exit at 99.48) with
`pnl = (99.48-100)·1 - (100+99.48)·0.0004 = -0.599792` exactly; for Sell
the formula is `entry · (1 + adj)`. -/
theorem s3_liquidation_exact :
    calculate_liquidation_price .Buy 100 100 0.004 0.0004 = 99.48 ∧
    (99.48 : ℚ) = 100 * (1 - (1 / 100 - 0.004 - 2 * 0.0004)) ∧
    calculate_liquidation_price .Sell 100 100 0.004 0.0004 =
      100 * (1 + (1 / 100 - 0.004 - 2 * 0.0004)) ∧
    s3Position.liquidationPrice = 99.48 ∧
    (check_liquidationsM [s3Position] "btcusdt" 99.48 0.0004 5).2.map
      (fun p => (p.status, p.exitPrice, p.pnl)) =
      [(PositionStatus.Liquidated, some 99.48, -0.599792)] := by
  refine ⟨by norm_num [calculate_liquidation_price], by norm_num, by
    norm_num [calculate_liquidation_price], by
    norm_num [s3Position, s3Signal, open_position, calculate_liquidation_price], ?_⟩
  norm_num [check_liquidationsM, s3Position, s3Signal, open_position,
    calculate_liquidation_price, calculate_initial_margin, calculate_maintenance_margin,
    Position.shouldLiquidate, mutateFirstOpen, liquidateMutation]

/-- C3: a position closed with no prior partial fill realizes
`pnl = side·(exit-entry)·original_quantity - (entry+exit)·original_quantity·fee`;
after a TP1 partial close of `q1` at `px1`, the final pnl is the sum of the
two legs, each satisfying the same identity over its closed quantity. -/
theorem closed_position_pnl_identity (p : Position) (exitPrice feeRate : ℚ) (now : ℤ)
    (q1 px1 : ℚ) (hpnl : p.pnl = 0) (hqty : p.quantity = p.originalQuantity) :
    (closePosMutation p exitPrice feeRate now).pnl =
      p.side.sign * (exitPrice - p.entryPrice) * p.originalQuantity -
        (p.entryPrice * p.originalQuantity + exitPrice * p.originalQuantity) * feeRate ∧
    (closePosMutation (closePartialMutation p q1 px1 feeRate).1 exitPrice feeRate now).pnl =
      (p.side.sign * (px1 - p.entryPrice) * q1 -
        (p.entryPrice * q1 + px1 * q1) * feeRate) +
      (p.side.sign * (exitPrice - p.entryPrice) * (p.originalQuantity - q1) -
        (p.entryPrice * (p.originalQuantity - q1) +
          exitPrice * (p.originalQuantity - q1)) * feeRate) := by
  cases hside : p.side <;>
    constructor <;>
      simp [closePosMutation, closePartialMutation, Side.sign, hside, hpnl, hqty]

/-- Witness for `closed_position_pnl_identity` at the S3 position
(Buy, entry 100, qty 1 = original quantity, pnl 0): a direct close at 102
and a TP1-then-close path both instantiate the identity. -/
theorem closed_position_pnl_identity_witness :
    (closePosMutation s3Position 102 0.0004 9).pnl =
      s3Position.side.sign * (102 - s3Position.entryPrice) * s3Position.originalQuantity -
        (s3Position.entryPrice * s3Position.originalQuantity +
          102 * s3Position.originalQuantity) * 0.0004 ∧
    (closePosMutation (closePartialMutation s3Position 0.5 101 0.0004).1 102 0.0004 9).pnl =
      (s3Position.side.sign * (101 - s3Position.entryPrice) * 0.5 -
        (s3Position.entryPrice * 0.5 + 101 * 0.5) * 0.0004) +
      (s3Position.side.sign * (102 - s3Position.entryPrice) * (s3Position.originalQuantity - 0.5) -
        (s3Position.entryPrice * (s3Position.originalQuantity - 0.5) +
          102 * (s3Position.originalQuantity - 0.5)) * 0.0004) :=
  closed_position_pnl_identity s3Position 102 0.0004 9 0.5 101
    (by norm_num [s3Position, s3Signal, open_position])
    (by norm_num [s3Position, s3Signal, open_position])

/-- C6 counterexample: with `break_even_ticks = 5`, `min_hold_secs = 30`,
`trigger_rr = 1`, a Buy at entry 100 / stop 90 seen at price 105 and t = 0:
the code moves to break-even (displacement 5 ≥ 5) although the spec's
predicate is false (held 0 s < 30 s, risk multiple 0.5 < 1). -/
theorem break_even_counterexample :
    should_move_to_break_even c6Risk c6Position 105 = true ∧
    specShouldMoveToBreakEven 5 30 1 c6Position 105 0 = false := by
  constructor
  · norm_num [should_move_to_break_even, c6Risk, c6Position, open_position]
  · norm_num [specShouldMoveToBreakEven, c6Position, open_position]

/-- C6 amended: `should_move_to_break_even` takes no clock and returns true
iff the break-even flag is unset and the favorable displacement reaches
`break_even_ticks`; it checks no minimum hold time and no risk-multiple. -/
theorem should_move_to_break_even_characterization (rm : RiskManager) (p : Position)
    (price : ℚ) :
    should_move_to_break_even rm p price = true ↔
      p.breakEvenMoved = false ∧
        rm.breakEvenTicks ≤
          (match p.side with
            | Side.Buy => price - p.entryPrice
            | Side.Sell => p.entryPrice - price) := by
  cases hbe : p.breakEvenMoved <;> simp [should_move_to_break_even, hbe]

/-- If `mutateFirstOpen` returns a position, it is `f` applied to an open
member of the list that bears the requested id. -/
theorem mutateFirstOpen_snd_some {pid : String} {f : Position → Position} :
    ∀ {ps : List Position} {p' : Position},
      (mutateFirstOpen pid f ps).2 = some p' →
      ∃ p ∈ ps, p' = f p ∧ p.id = pid ∧ p.status = PositionStatus.Open := by
  intro ps
  induction ps with
  | nil => intro p' h; simp [mutateFirstOpen] at h
  | cons p rest ih =>
    intro p' h
    by_cases hc : p.id = pid ∧ p.status = PositionStatus.Open
    · refine ⟨p, by simp, ?_, hc.1, hc.2⟩
      simp only [mutateFirstOpen, if_pos hc] at h
      exact (Option.some.injEq _ _ ▸ h).symm
    · simp only [mutateFirstOpen, if_neg hc] at h
      obtain ⟨q, hq, rest'⟩ := ih h
      exact ⟨q, by simp [hq], rest'⟩

/-- The liquidation mutation satisfies the liquidation-leg pnl formula in
terms of its own (post-mutation) fields. -/
theorem liquidateMutation_pnl (p : Position) (feeRate : ℚ) (now : ℤ) :
    (liquidateMutation p feeRate now).pnl =
      (liquidateMutation p feeRate now).side.sign *
          ((liquidateMutation p feeRate now).liquidationPrice -
            (liquidateMutation p feeRate now).entryPrice) *
          (liquidateMutation p feeRate now).quantity -
        ((liquidateMutation p feeRate now).entryPrice +
            (liquidateMutation p feeRate now).liquidationPrice) *
          (liquidateMutation p feeRate now).quantity * feeRate := by
  cases hside : p.side <;>
    · simp only [liquidateMutation, hside, Side.sign]
      ring

/-- C10: every position finalized by `check_liquidations` carries exactly
the liquidation-leg pnl `side·(liq - entry)·remaining_qty -
(entry + liq)·remaining_qty·fee` — the field is assigned, not added, so pnl
previously accumulated by a TP1 partial close is discarded. -/
theorem check_liquidations_assigns_liq_leg (ps : List Position) (symbol : String)
    (markPrice feeRate : ℚ) (now : ℤ) :
    ∀ p' ∈ (check_liquidationsM ps symbol markPrice feeRate now).2,
      p'.pnl = p'.side.sign * (p'.liquidationPrice - p'.entryPrice) * p'.quantity -
        (p'.entryPrice + p'.liquidationPrice) * p'.quantity * feeRate := by
  have main : ∀ (ids : List String) (st : List Position × List Position),
      (∀ x ∈ st.2,
        x.pnl = x.side.sign * (x.liquidationPrice - x.entryPrice) * x.quantity -
          (x.entryPrice + x.liquidationPrice) * x.quantity * feeRate) →
      ∀ x ∈ (ids.foldl
        (fun acc pid =>
          let r := mutateFirstOpen pid (fun p => liquidateMutation p feeRate now) acc.1
          (r.1, acc.2 ++ r.2.toList)) st).2,
        x.pnl = x.side.sign * (x.liquidationPrice - x.entryPrice) * x.quantity -
          (x.entryPrice + x.liquidationPrice) * x.quantity * feeRate := by
    intro ids
    induction ids with
    | nil => intro st hst; simpa using hst
    | cons pid rest ih =>
      intro st hst
      simp only [List.foldl_cons]
      apply ih
      intro x hx
      rcases List.mem_append.mp hx with hx | hx
      · exact hst x hx
      · rcases hr : (mutateFirstOpen pid (fun p => liquidateMutation p feeRate now) st.1).2 with
          _ | p''
        · simp [hr] at hx
        · simp only [hr, Option.toList_some, List.mem_singleton] at hx
          obtain ⟨q, _, hq, -, -⟩ := mutateFirstOpen_snd_some hr
          subst hx
          rw [hq]
          exact liquidateMutation_pnl q feeRate now
  intro p' hp'
  have := main ((ps.filter fun p =>
    p.status = PositionStatus.Open ∧ p.symbol = symbol ∧ p.shouldLiquidate markPrice).map
      fun p => p.id) (ps, []) (by simp)
  exact this p' hp'

/-- Witness for `check_liquidations_assigns_liq_leg`: a qty-2 Buy position
partially closed at TP1 (pnl 0.9196) and then liquidated at 99.48 ends with
exactly the liquidation-leg pnl -0.599792 — the TP1 pnl is discarded. -/
theorem check_liquidations_assigns_liq_leg_witness :
    c10Liquidated ∈ (check_liquidationsM c10AfterTp1 "btcusdt" 99.48 0.0004 5).2 ∧
    c10Liquidated.pnl =
      c10Liquidated.side.sign * (c10Liquidated.liquidationPrice - c10Liquidated.entryPrice) *
          c10Liquidated.quantity -
        (c10Liquidated.entryPrice + c10Liquidated.liquidationPrice) * c10Liquidated.quantity *
          0.0004 := by
  have hmem : c10Liquidated ∈ (check_liquidationsM c10AfterTp1 "btcusdt" 99.48 0.0004 5).2 := by
    norm_num [check_liquidationsM, c10AfterTp1, c10Position, c10Liquidated, s3Signal,
      open_position, calculate_liquidation_price, calculate_initial_margin,
      calculate_maintenance_margin, close_partialM, closePartialMutation, mutateFirstOpen,
      liquidateMutation, Position.shouldLiquidate]
  exact ⟨hmem,
    check_liquidations_assigns_liq_leg c10AfterTp1 "btcusdt" 99.48 0.0004 5 c10Liquidated hmem⟩

/-- An element of `(some a)` (as an `Option` membership) is `a`. -/
theorem mem_some_eq {α : Type _} {a c : α} (h : c ∈ some a) : c = a :=
  (by simpa using h : a = c).symm

/-- Byte-lexicographic order on bucket keys is total. -/
theorem keyLtb_total : ∀ a b : BucketKey, a = b ∨ keyLtb a b = true ∨ keyLtb b a = true := by
  intro a
  induction a with
  | nil =>
    intro b
    cases b with
    | nil => exact Or.inl rfl
    | cons y ys => exact Or.inr (Or.inl (by simp [keyLtb]))
  | cons x xs ih =>
    intro b
    cases b with
    | nil => exact Or.inr (Or.inr (by simp [keyLtb]))
    | cons y ys =>
      by_cases hxy : x < y
      · exact Or.inr (Or.inl (by simp [keyLtb, hxy]))
      · by_cases hyx : y < x
        · exact Or.inr (Or.inr (by simp [keyLtb, hyx]))
        · have hxy' : x = y := le_antisymm (not_lt.mp hyx) (not_lt.mp hxy)
          subst hxy'
          rcases ih ys with h | h | h
          · exact Or.inl (by rw [h])
          · exact Or.inr (Or.inl (by simpa [keyLtb] using h))
          · exact Or.inr (Or.inr (by simpa [keyLtb] using h))

/-- The head key after a footprint insertion is the inserted key or the old
head key. -/
theorem footprintAdd_headKey (key : BucketKey) (side : Side) (qty : ℚ)
    (l : List (BucketKey × FootprintLevel)) :
    ((footprintAdd key side qty l).head?.map fun e => e.1) = some key ∨
      ((footprintAdd key side qty l).head?.map fun e => e.1) = l.head?.map fun e => e.1 := by
  cases l with
  | nil => left; simp [footprintAdd]
  | cons hd tl =>
    obtain ⟨k, lv⟩ := hd
    by_cases heq : key = k
    · right; simp [footprintAdd, heq]
    · by_cases hlt : keyLtb key k = true
      · left; simp [footprintAdd, heq, hlt]
      · right; simp [footprintAdd, heq, hlt]

/-- `footprintAdd` keeps the footprint in canonical (strictly ascending)
form. -/
theorem footprintAdd_sorted (key : BucketKey) (side : Side) (qty : ℚ) :
    ∀ l : List (BucketKey × FootprintLevel), FootprintSorted l →
      FootprintSorted (footprintAdd key side qty l) := by
  intro l
  induction l with
  | nil => intro _; simp [footprintAdd, FootprintSorted]
  | cons hd tl ih =>
    intro hs
    obtain ⟨k, lv⟩ := hd
    have htl : FootprintSorted tl := (List.chain'_cons'.mp hs).2
    have hhd : ∀ c ∈ tl.head?, keyLtb k c.1 = true := (List.chain'_cons'.mp hs).1
    by_cases heq : key = k
    · have hgoal : footprintAdd key side qty ((k, lv) :: tl) =
          (k, lv.bump side qty) :: tl := by
        simp [footprintAdd, heq]
      rw [FootprintSorted, hgoal]
      exact List.chain'_cons'.mpr ⟨fun c hc => hhd c hc, htl⟩
    · by_cases hlt : keyLtb key k = true
      · have hgoal : footprintAdd key side qty ((k, lv) :: tl) =
            (key, FootprintLevel.default.bump side qty) :: (k, lv) :: tl := by
          simp [footprintAdd, heq, hlt]
        rw [FootprintSorted, hgoal]
        refine List.chain'_cons'.mpr ⟨?_, hs⟩
        intro c hc
        rw [List.head?_cons] at hc
        rw [mem_some_eq hc]
        exact hlt
      · have hkey : keyLtb k key = true := by
          rcases keyLtb_total key k with h | h | h
          · exact absurd h heq
          · exact absurd h hlt
          · exact h
        have hgoal : footprintAdd key side qty ((k, lv) :: tl) =
            (k, lv) :: footprintAdd key side qty tl := by
          simp [footprintAdd, heq, hlt]
        rw [FootprintSorted, hgoal]
        refine List.chain'_cons'.mpr ⟨?_, ih htl⟩
        intro c hc
        rcases footprintAdd_headKey key side qty tl with h | h
        · cases hft : (footprintAdd key side qty tl).head? with
          | none => rw [hft] at hc; cases hc
          | some d =>
            rw [hft] at hc h
            rw [mem_some_eq hc]
            simp at h
            rw [h]
            exact hkey
        · cases hft : (footprintAdd key side qty tl).head? with
          | none => rw [hft] at hc; cases hc
          | some d =>
            rw [hft] at hc h
            rw [mem_some_eq hc]
            cases htt : tl.head? with
            | none => rw [htt] at h; cases h
            | some e =>
              rw [htt] at h
              simp at h
              have := hhd e (by rw [htt]; rfl)
              rw [h]
              exact this

/-- `BuildingBar.new` establishes the building-bar invariant. -/
theorem buildingBar_new_inv (trade : NormalizedTrade) : BuildingBarInv (BuildingBar.new trade) := by
  refine ⟨?_, ?_⟩
  · cases h : trade.side <;> simp [BuildingBar.new, h]
  · simp [BuildingBar.new, FootprintSorted]

/-- `BuildingBar.update` preserves the building-bar invariant. -/
theorem buildingBar_update_inv (b : BuildingBar) (trade : NormalizedTrade)
    (hb : BuildingBarInv b) : BuildingBarInv (b.update trade) := by
  obtain ⟨hvol, hsort⟩ := hb
  constructor
  · cases h : trade.side <;>
      simp [BuildingBar.update, h, hvol.symm] <;> ring
  · exact footprintAdd_sorted (price_key trade.price) trade.side trade.quantity
      b.footprint hsort

/-- `process_trade` preserves the builder invariant, keeps the range
configuration, and any bar it emits is `EmittedBarGood`. -/
theorem process_trade_inv (rb : RangeBarBuilder) (trade : NormalizedTrade)
    (hinv : BuilderInv rb) :
    BuilderInv (rb.process_trade trade).1 ∧
    (rb.process_trade trade).1.rangeFor = rb.rangeFor ∧
    ∀ bar ∈ (rb.process_trade trade).2, EmittedBarGood rb.rangeFor bar := by
  have storeInv : ∀ st' : SymbolBarState,
      (st'.rangeSize = rb.rangeFor trade.symbol ∧
        ∀ b, st'.current = some b → BuildingBarInv b) →
      BuilderInv
        { rangeFor := rb.rangeFor,
          builders := fun s => if s = trade.symbol then some st' else rb.builders s } := by
    intro st' hst' sym st hst
    dsimp only at hst ⊢
    by_cases hsym : sym = trade.symbol
    · subst hsym
      rw [if_pos rfl] at hst
      cases hst
      exact hst'
    · rw [if_neg hsym] at hst
      exact hinv sym st hst
  rcases hmap : rb.builders trade.symbol with _ | st₀
  · -- no state yet: the default state opens a bar, nothing is emitted
    have heq : rb.process_trade trade =
        ({ rangeFor := rb.rangeFor,
           builders := fun s => if s = trade.symbol then
             some { rangeSize := rb.rangeFor trade.symbol,
                    current := some (BuildingBar.new trade), barCount := 0 }
             else rb.builders s }, none) := by
      simp [RangeBarBuilder.process_trade, hmap]
    rw [heq]
    exact ⟨storeInv _ ⟨rfl, fun b hb => by cases hb; exact buildingBar_new_inv trade⟩,
      rfl, by simp⟩
  · obtain ⟨hrange, hcur⟩ := hinv trade.symbol st₀ hmap
    rcases hbar0 : st₀.current with _ | b₀
    · -- state with no in-progress bar
      have heq : rb.process_trade trade =
          ({ rangeFor := rb.rangeFor,
             builders := fun s => if s = trade.symbol then
               some { rangeSize := st₀.rangeSize,
                      current := some (BuildingBar.new trade), barCount := st₀.barCount }
               else rb.builders s }, none) := by
        simp [RangeBarBuilder.process_trade, hmap, hbar0]
      rw [heq]
      exact ⟨storeInv _ ⟨hrange, fun b hb => by cases hb; exact buildingBar_new_inv trade⟩,
        rfl, by simp⟩
    · -- in-progress bar: update, emit if the range threshold is met
      have hb₀ : BuildingBarInv b₀ := hcur b₀ hbar0
      have hupd : BuildingBarInv (b₀.update trade) := buildingBar_update_inv b₀ trade hb₀
      by_cases hthr : st₀.rangeSize ≤ (b₀.update trade).range
      · have heq : rb.process_trade trade =
            ({ rangeFor := rb.rangeFor,
               builders := fun s => if s = trade.symbol then
                 some { rangeSize := st₀.rangeSize,
                        current := some (BuildingBar.new trade), barCount := st₀.barCount + 1 }
                 else rb.builders s },
              some { symbol := trade.symbol
                     openPrice := (b₀.update trade).openPrice
                     highPrice := (b₀.update trade).highPrice
                     lowPrice := (b₀.update trade).lowPrice
                     closePrice := (b₀.update trade).closePrice
                     volume := (b₀.update trade).volume
                     buyVolume := (b₀.update trade).buyVolume
                     sellVolume := (b₀.update trade).sellVolume
                     openTime := (b₀.update trade).openTime
                     closeTime := trade.timestamp
                     footprint := (b₀.update trade).footprint
                     barIndex := st₀.barCount + 1 }) := by
          simp [RangeBarBuilder.process_trade, hmap, hbar0, hthr]
        rw [heq]
        refine ⟨storeInv _ ⟨hrange, fun b hb => by cases hb; exact buildingBar_new_inv trade⟩,
          rfl, ?_⟩
        intro bar hbar
        simp only [Option.mem_def, Option.some.injEq] at hbar
        subst hbar
        refine ⟨?_, hupd.1, hupd.2⟩
        dsimp only
        rw [← hrange]
        simpa [BuildingBar.range] using hthr
      · have heq : rb.process_trade trade =
            ({ rangeFor := rb.rangeFor,
               builders := fun s => if s = trade.symbol then
                 some { rangeSize := st₀.rangeSize,
                        current := some (b₀.update trade), barCount := st₀.barCount }
                 else rb.builders s }, none) := by
          simp [RangeBarBuilder.process_trade, hmap, hbar0, hthr]
        rw [heq]
        exact ⟨storeInv _ ⟨hrange, fun b hb => by cases hb; exact hupd⟩, rfl, by simp⟩

/-- Every bar emitted over a whole trade sequence from an invariant-holding
builder is `EmittedBarGood`. -/
theorem processTrades_bars_good (trades : List NormalizedTrade) :
    ∀ rb : RangeBarBuilder, BuilderInv rb →
      BuilderInv (rb.processTrades trades).1 ∧
      (rb.processTrades trades).1.rangeFor = rb.rangeFor ∧
      ∀ bar ∈ (rb.processTrades trades).2, EmittedBarGood rb.rangeFor bar := by
  induction trades with
  | nil =>
    intro rb hrb
    exact ⟨hrb, rfl, by simp [RangeBarBuilder.processTrades]⟩
  | cons t ts ih =>
    intro rb hrb
    obtain ⟨hinv', hrf', hbars'⟩ := process_trade_inv rb t hrb
    obtain ⟨hinv'', hrf'', hbars''⟩ := ih (rb.process_trade t).1 hinv'
    refine ⟨?_, ?_, ?_⟩
    · simpa [RangeBarBuilder.processTrades] using hinv''
    · simp only [RangeBarBuilder.processTrades]
      rw [hrf'', hrf']
    · intro bar hbar
      simp only [RangeBarBuilder.processTrades, List.mem_append] at hbar
      rcases hbar with hbar | hbar
      · rcases hout : (rb.process_trade t).2 with _ | b
        · simp [hout] at hbar
        · simp only [hout, Option.toList_some, List.mem_singleton] at hbar
          subst hbar
          exact hbars' bar (by simp [hout])
      · have := hbars'' bar hbar
        rwa [hrf'] at this

/-- C1: every bar emitted by the range-bar builder over any trade sequence
has `high - low` at least the symbol's configured range size, and its buy
and sell volumes sum to its total volume. -/
theorem range_bar_invariants (rangeFor : String → ℚ) (trades : List NormalizedTrade)
    (bar : RangeBar) (hbar : bar ∈ ((RangeBarBuilder.new rangeFor).processTrades trades).2) :
    rangeFor bar.symbol ≤ bar.highPrice - bar.lowPrice ∧
      bar.buyVolume + bar.sellVolume = bar.volume := by
  have hinit : BuilderInv (RangeBarBuilder.new rangeFor) := by
    intro sym st hst
    simp [RangeBarBuilder.new] at hst
  have h := (processTrades_bars_good trades (RangeBarBuilder.new rangeFor) hinit).2.2 bar hbar
  exact ⟨h.1, h.2.1⟩

set_option maxRecDepth 100000 in
set_option maxHeartbeats 2000000 in
/-- Witness for `range_bar_invariants`: scenario S1 (range size 1, buys at
100, 100.4, 100.9, 101.05) emits exactly one bar; it satisfies both
invariants. -/
theorem range_bar_invariants_witness :
    ∃ bar ∈ ((RangeBarBuilder.new fun _ => 1).processTrades s1Trades).2,
      (fun _ : String => (1 : ℚ)) bar.symbol ≤ bar.highPrice - bar.lowPrice ∧
        bar.buyVolume + bar.sellVolume = bar.volume := by
  have hmem : ((RangeBarBuilder.new fun _ => 1).processTrades s1Trades).2.length = 1 := by
    norm_num [s1Trades, RangeBarBuilder.processTrades, RangeBarBuilder.process_trade,
      RangeBarBuilder.new, BuildingBar.new, BuildingBar.update, BuildingBar.range,
      footprintAdd, price_key, roundDp1Tenths, roundHalfEven, natDigitBytes, natDigitsAux, keyLtb,
      FootprintLevel.bump, FootprintLevel.default,
      show (Side.Buy = Side.Sell) = False from by simp,
      show (Side.Sell = Side.Buy) = False from by simp]
  rcases hl : ((RangeBarBuilder.new fun _ => 1).processTrades s1Trades).2 with _ | ⟨b, rest⟩
  · rw [hl] at hmem; simp at hmem
  · exact ⟨b, by simp [hl],
      range_bar_invariants (fun _ => 1) s1Trades b (by simp [hl])⟩

/-- The absorption-detection loop is the first-match scan of the per-level
classifier. -/
theorem detectAbsorptionGo_eq (r m pd : ℚ) : ∀ levels : List FootprintLevel,
    detectAbsorptionGo r m pd levels =
      match levels.findSome? (absorptionLevelClass r m pd) with
      | some s => (true, some s)
      | none => (false, none) := by
  intro levels
  induction levels with
  | nil => simp [detectAbsorptionGo]
  | cons lv rest ih =>
    by_cases h0 : lv.bidVolume + lv.askVolume = 0
    · have hcls : absorptionLevelClass r m pd lv = none := by
        unfold absorptionLevelClass
        rw [if_neg]
        rintro ⟨hb, ha⟩
        linarith
      rw [detectAbsorptionGo, if_pos h0, List.findSome?_cons, hcls, ih]
    · by_cases hpos : 0 < lv.bidVolume ∧ 0 < lv.askVolume
      · by_cases hsell : r < lv.bidVolume / lv.askVolume ∧ pd ≤ m
        · rw [detectAbsorptionGo, if_neg h0, if_pos hpos, if_pos hsell,
            List.findSome?_cons]
          unfold absorptionLevelClass
          rw [if_pos hpos, if_pos hsell]
        · by_cases hbuy : r < lv.askVolume / lv.bidVolume ∧ pd ≤ m
          · rw [detectAbsorptionGo, if_neg h0, if_pos hpos, if_neg hsell, if_pos hbuy,
              List.findSome?_cons]
            unfold absorptionLevelClass
            rw [if_pos hpos, if_neg hsell, if_pos hbuy]
          · rw [detectAbsorptionGo, if_neg h0, if_pos hpos, if_neg hsell, if_neg hbuy,
              List.findSome?_cons]
            unfold absorptionLevelClass
            rw [if_pos hpos, if_neg hsell, if_neg hbuy, ih]
            rfl
      · rw [detectAbsorptionGo, if_neg h0, if_neg hpos, List.findSome?_cons]
        unfold absorptionLevelClass
        rw [if_neg hpos, ih]
        rfl

set_option maxRecDepth 100000 in
set_option maxHeartbeats 2000000 in
/-- C8 counterexample: on the bar built from `c8Trades` (buckets 99.5 and
100.0), the code scans the string-keyed footprint with "100.0" FIRST and
reports Sell-side absorption, while the claimed ascending numeric
price-bucket scan visits 99.5 first and reports Buy-side absorption. -/
theorem absorption_scan_counterexample :
    ((RangeBarBuilder.new c8RangeFor).processTrades c8Trades).2.map
        (fun b => detect_absorption 2 10 b) = [(true, some Side.Sell)] ∧
    ((RangeBarBuilder.new c8RangeFor).processTrades c8Trades).2.map
        (fun b => detectAbsorptionNumericAsc 2 10 b) = [(true, some Side.Buy)] := by
  constructor <;>
    norm_num [c8Trades, c8RangeFor, RangeBarBuilder.processTrades,
      RangeBarBuilder.process_trade, RangeBarBuilder.new, BuildingBar.new, BuildingBar.update,
      BuildingBar.range, footprintAdd, price_key, roundDp1Tenths, roundHalfEven, natDigitBytes,
      natDigitsAux, keyLtb, FootprintLevel.bump, FootprintLevel.default, detect_absorption,
      detectAbsorptionNumericAsc, detectAbsorptionGo, insertionSortBy, insertionSortBy.ins,
      keyTenths,
      show |(3/5 : ℚ)| = 3/5 from abs_of_nonneg (by norm_num),
      show (Side.Buy = Side.Sell) = False from by simp,
      show (Side.Sell = Side.Buy) = False from by simp]

/-- C8 amended: absorption detection scans the footprint levels in the
stored map order — ascending BYTE-LEXICOGRAPHIC string-key order, which can
differ from ascending numeric bucket order — with `price_delta =
|close - open|`; the first level matching the per-level classifier (Sell
check before Buy check, only levels with both sides positive can match)
determines the result, and if no level matches the result is
`(false, none)`. -/
theorem absorption_scan_characterization (rangeFor : String → ℚ)
    (trades : List NormalizedTrade) (bar : RangeBar) (r m : ℚ)
    (hbar : bar ∈ ((RangeBarBuilder.new rangeFor).processTrades trades).2) :
    FootprintSorted bar.footprint ∧
    detect_absorption r m bar =
      (match (bar.footprint.map fun e => e.2).findSome?
          (absorptionLevelClass r m |bar.closePrice - bar.openPrice|) with
        | some s => (true, some s)
        | none => (false, none)) := by
  have hinit : BuilderInv (RangeBarBuilder.new rangeFor) := by
    intro sym st hst
    simp [RangeBarBuilder.new] at hst
  have h := (processTrades_bars_good trades (RangeBarBuilder.new rangeFor) hinit).2.2 bar hbar
  exact ⟨h.2.2, detectAbsorptionGo_eq r m _ _⟩

set_option maxRecDepth 100000 in
set_option maxHeartbeats 2000000 in
/-- Witness for `absorption_scan_characterization` at the bar emitted from
`c8Trades` with ratio 2 and max price delta 10. -/
theorem absorption_scan_characterization_witness :
    ∃ bar ∈ ((RangeBarBuilder.new c8RangeFor).processTrades c8Trades).2,
      FootprintSorted bar.footprint ∧
      detect_absorption 2 10 bar =
        (match (bar.footprint.map fun e => e.2).findSome?
            (absorptionLevelClass 2 10 |bar.closePrice - bar.openPrice|) with
          | some s => (true, some s)
          | none => (false, none)) := by
  have hmem : ((RangeBarBuilder.new c8RangeFor).processTrades c8Trades).2.length = 1 := by
    norm_num [c8Trades, c8RangeFor, RangeBarBuilder.processTrades,
      RangeBarBuilder.process_trade, RangeBarBuilder.new, BuildingBar.new, BuildingBar.update,
      BuildingBar.range, footprintAdd, price_key, roundDp1Tenths, roundHalfEven, natDigitBytes,
      natDigitsAux, keyLtb, FootprintLevel.bump, FootprintLevel.default,
      show (Side.Buy = Side.Sell) = False from by simp,
      show (Side.Sell = Side.Buy) = False from by simp]
  rcases hl : ((RangeBarBuilder.new c8RangeFor).processTrades c8Trades).2 with _ | ⟨b, rest⟩
  · rw [hl] at hmem; simp at hmem
  · exact ⟨b, by simp [hl],
      absorption_scan_characterization c8RangeFor c8Trades b 2 10 (by simp [hl])⟩

/-- The head key after a level insertion is the inserted tick or the old
head key. -/
theorem levelsAdd_headKey (tick : ℤ) (qty : ℚ) (l : List (ℤ × ℚ)) :
    ((levelsAdd tick qty l).head?.map fun e => e.1) = some tick ∨
      ((levelsAdd tick qty l).head?.map fun e => e.1) = l.head?.map fun e => e.1 := by
  cases l with
  | nil => left; simp [levelsAdd]
  | cons hd tl =>
    obtain ⟨t, v⟩ := hd
    by_cases heq : tick = t
    · right; simp [levelsAdd, heq]
    · by_cases hlt : tick < t
      · left; simp [levelsAdd, heq, hlt]
      · right; simp [levelsAdd, heq, hlt]

/-- `levelsAdd` keeps the level map in canonical (strictly ascending) form. -/
theorem levelsAdd_sorted (tick : ℤ) (qty : ℚ) :
    ∀ l : List (ℤ × ℚ), LevelsSorted l → LevelsSorted (levelsAdd tick qty l) := by
  intro l
  induction l with
  | nil => intro _; simp [levelsAdd, LevelsSorted]
  | cons hd tl ih =>
    intro hs
    obtain ⟨t, v⟩ := hd
    have htl : LevelsSorted tl := (List.chain'_cons'.mp hs).2
    have hhd : ∀ c ∈ tl.head?, t < c.1 := (List.chain'_cons'.mp hs).1
    by_cases heq : tick = t
    · have hgoal : levelsAdd tick qty ((t, v) :: tl) = (t, v + qty) :: tl := by
        simp [levelsAdd, heq]
      rw [LevelsSorted, hgoal]
      exact List.chain'_cons'.mpr ⟨fun c hc => hhd c hc, htl⟩
    · by_cases hlt : tick < t
      · have hgoal : levelsAdd tick qty ((t, v) :: tl) = (tick, qty) :: (t, v) :: tl := by
          simp [levelsAdd, heq, hlt]
        rw [LevelsSorted, hgoal]
        refine List.chain'_cons'.mpr ⟨?_, hs⟩
        intro c hc
        rw [List.head?_cons] at hc
        rw [mem_some_eq hc]
        exact hlt
      · have hkey : t < tick := by omega
        have hgoal : levelsAdd tick qty ((t, v) :: tl) = (t, v) :: levelsAdd tick qty tl := by
          simp [levelsAdd, heq, hlt]
        rw [LevelsSorted, hgoal]
        refine List.chain'_cons'.mpr ⟨?_, ih htl⟩
        intro c hc
        rcases levelsAdd_headKey tick qty tl with h | h
        · cases hft : (levelsAdd tick qty tl).head? with
          | none => rw [hft] at hc; cases hc
          | some d =>
            rw [hft] at hc h
            rw [mem_some_eq hc]
            simp at h
            rw [h]
            exact hkey
        · cases hft : (levelsAdd tick qty tl).head? with
          | none => rw [hft] at hc; cases hc
          | some d =>
            rw [hft] at hc h
            rw [mem_some_eq hc]
            cases htt : tl.head? with
            | none => rw [htt] at h; cases h
            | some e =>
              rw [htt] at h
              simp at h
              have := hhd e (by rw [htt]; rfl)
              rw [h]
              exact this

/-- Every key of the level map after an insertion is the inserted tick or a
key that was already present. -/
theorem levelsAdd_mem_key (tick : ℤ) (qty : ℚ) :
    ∀ (l : List (ℤ × ℚ)) (e : ℤ × ℚ), e ∈ levelsAdd tick qty l →
      e.1 = tick ∨ e.1 ∈ l.map fun x => x.1 := by
  intro l
  induction l with
  | nil =>
    intro e he
    simp only [levelsAdd, List.mem_singleton] at he
    left; rw [he]
  | cons hd tl ih =>
    intro e he
    obtain ⟨t, v⟩ := hd
    by_cases heq : tick = t
    · rw [show levelsAdd tick qty ((t, v) :: tl) = (t, v + qty) :: tl by
        simp [levelsAdd, heq]] at he
      rcases List.mem_cons.mp he with h | h
      · left; rw [h, heq]
      · right; simp only [List.map_cons, List.mem_cons]
        right
        exact List.mem_map_of_mem _ h
    · by_cases hlt : tick < t
      · rw [show levelsAdd tick qty ((t, v) :: tl) = (tick, qty) :: (t, v) :: tl by
          simp [levelsAdd, heq, hlt]] at he
        rcases List.mem_cons.mp he with h | h
        · left; rw [h]
        · right
          simpa using (List.mem_map_of_mem (fun x : ℤ × ℚ => x.1) h)
      · rw [show levelsAdd tick qty ((t, v) :: tl) = (t, v) :: levelsAdd tick qty tl by
          simp [levelsAdd, heq, hlt]] at he
        rcases List.mem_cons.mp he with h | h
        · right; rw [h]; simp
        · rcases ih e h with h' | h'
          · left; exact h'
          · right; simp only [List.map_cons, List.mem_cons]; right; exact h'

/-- The fold inside `maxByLast` returns a member that realizes the maximum
volume; on a strictly ascending key list, ties resolve to the LARGEST key
(the last maximal entry in iteration order, Rust's `max_by`). -/
theorem maxByLast_fold_spec :
    ∀ (xs : List (ℤ × ℚ)) (x : ℤ × ℚ), LevelsSorted (x :: xs) →
      (xs.foldl (fun a y => if y.2 < a.2 then a else y) x) ∈ x :: xs ∧
      (∀ y ∈ x :: xs, y.2 ≤ (xs.foldl (fun a y => if y.2 < a.2 then a else y) x).2) ∧
      (∀ y ∈ x :: xs, y.2 = (xs.foldl (fun a y => if y.2 < a.2 then a else y) x).2 →
        y.1 ≤ (xs.foldl (fun a y => if y.2 < a.2 then a else y) x).1) := by
  intro xs
  induction xs with
  | nil =>
    intro x _
    refine ⟨by simp, ?_, ?_⟩ <;> intro y hy <;> rw [List.mem_singleton.mp hy] <;> simp
  | cons y ys ih =>
    intro x hs
    have hxy : x.1 < y.1 := (List.chain'_cons'.mp hs).1 y (by simp)
    have hyys : LevelsSorted (y :: ys) := (List.chain'_cons'.mp hs).2
    have hz : LevelsSorted ((if y.2 < x.2 then x else y) :: ys) := by
      by_cases hc : y.2 < x.2
      · rw [if_pos hc]
        refine List.chain'_cons'.mpr ⟨?_, (List.chain'_cons'.mp hyys).2⟩
        intro c hc'
        exact lt_trans hxy ((List.chain'_cons'.mp hyys).1 c hc')
      · rw [if_neg hc]
        exact hyys
    obtain ⟨hmem, hmax, htie⟩ := ih _ hz
    have hfold : (y :: ys).foldl (fun a w => if w.2 < a.2 then a else w) x =
        ys.foldl (fun a w => if w.2 < a.2 then a else w) (if y.2 < x.2 then x else y) := by
      simp [List.foldl_cons]
    rw [hfold]
    set z := if y.2 < x.2 then x else y with hzdef
    set e := ys.foldl (fun a w => if w.2 < a.2 then a else w) z with hedef
    have hze : z.2 ≤ e.2 := hmax z (by simp)
    have hx2z : x.2 ≤ z.2 := by
      rw [hzdef]
      by_cases hc : y.2 < x.2
      · simp [hc]
      · simp only [hc, ite_false]
        exact le_of_not_lt hc
    have hy2z : y.2 ≤ z.2 := by
      rw [hzdef]
      by_cases hc : y.2 < x.2
      · simp only [hc, ite_true]
        exact le_of_lt hc
      · simp [hc]
    refine ⟨?_, ?_, ?_⟩
    · rcases List.mem_cons.mp hmem with h | h
      · by_cases hc : y.2 < x.2
        · rw [hzdef, if_pos hc] at h; rw [h]; simp
        · rw [hzdef, if_neg hc] at h; rw [h]; simp
      · simp [List.mem_cons.mpr (Or.inr (List.mem_cons.mpr (Or.inr h)))]
    · intro w hw
      rcases List.mem_cons.mp hw with h | hw'
      · rw [h]; exact le_trans hx2z hze
      · rcases List.mem_cons.mp hw' with h | h
        · rw [h]; exact le_trans hy2z hze
        · exact hmax w (List.mem_cons.mpr (Or.inr h))
    · intro w hw hweq
      rcases List.mem_cons.mp hw with h | hw'
      · -- w = x
        by_cases hc : y.2 < x.2
        · -- z = x: x itself is carried into the tail fold
          have hzx : z = x := by rw [hzdef, if_pos hc]
          rw [h, ← hzx]
          exact htie z (by simp) (by rw [hzx, ← h, hweq])
        · -- z = y and x.2 = e.2 forces y.2 = e.2, so y.1 ≤ e.1 and x.1 < y.1
          have hzy : z = y := by rw [hzdef, if_neg hc]
          have hx2 : x.2 = e.2 := by rw [← h]; exact hweq
          have hy2 : y.2 = e.2 := by
            have h1 : x.2 ≤ y.2 := le_of_not_gt hc
            have h2 : y.2 ≤ e.2 := le_trans hy2z hze
            exact le_antisymm h2 (hx2 ▸ h1)
          have hy1 : y.1 ≤ e.1 := by
            rw [← hzy] at hy2 ⊢
            exact htie z (by simp) hy2
          rw [h]
          exact le_of_lt (lt_of_lt_of_le hxy hy1)
      · rcases List.mem_cons.mp hw' with h | h
        · -- w = y
          by_cases hc : y.2 < x.2
          · -- z = x: y's volume is strictly below the running maximum
            exfalso
            have hzx : z = x := by rw [hzdef, if_pos hc]
            have h1 : y.2 < x.2 := hc
            have h2 : x.2 ≤ e.2 := le_trans hx2z hze
            rw [h] at hweq
            rw [hweq] at h1
            exact absurd (lt_of_le_of_lt h2 h1) (lt_irrefl _)
          · have hzy : z = y := by rw [hzdef, if_neg hc]
            rw [h, ← hzy]
            exact htie z (by simp) (by rw [hzy, ← h, hweq])
        · exact htie w (List.mem_cons.mpr (Or.inr h)) hweq

/-- `maxByLast` on a canonical level map returns a maximal-volume entry
whose key is largest among the tied maxima. -/
theorem maxByLast_spec (l : List (ℤ × ℚ)) (e : ℤ × ℚ) (hs : LevelsSorted l)
    (h : maxByLast l = some e) :
    e ∈ l ∧ (∀ y ∈ l, y.2 ≤ e.2) ∧ ∀ y ∈ l, y.2 = e.2 → y.1 ≤ e.1 := by
  cases l with
  | nil => simp [maxByLast] at h
  | cons x xs =>
    have hx := maxByLast_fold_spec xs x hs
    have : e = xs.foldl (fun a y => if y.2 < a.2 then a else y) x := by
      simp only [maxByLast] at h
      exact (Option.some.inj h).symm
    rw [this]
    exact hx

/-- The value-area loop only widens its bounds. -/
theorem vaLoop_bounds (levels : List (ℤ × ℚ)) (ticks : List ℤ) (target : ℚ) :
    ∀ (fuel : ℕ) (area : ℚ) (lo hi : ℤ),
      (vaLoop levels ticks target fuel area lo hi).1 ≤ lo ∧
        hi ≤ (vaLoop levels ticks target fuel area lo hi).2 := by
  intro fuel
  induction fuel with
  | zero => intro area lo hi; simp [vaLoop]
  | succ n ih =>
    intro area lo hi
    by_cases harea : area < target
    · rcases hA : next_tick_above ticks hi with _ | ta <;>
        rcases hB : next_tick_below ticks lo with _ | tb
      · simp [vaLoop, harea, hA, hB]
      · have htb : tb < lo := by
          have := List.find?_some hB
          simpa using this
        have := ih (area + (levelsGet levels tb).getD 0) tb hi
        simp only [vaLoop, if_pos harea, hA, hB]
        exact ⟨le_trans this.1 (le_of_lt htb), this.2⟩
      · have hta : hi < ta := by
          have := List.find?_some hA
          simpa using this
        have := ih (area + (levelsGet levels ta).getD 0) lo ta
        simp only [vaLoop, if_pos harea, hA, hB]
        exact ⟨this.1, le_trans (le_of_lt hta) this.2⟩
      · have hta : hi < ta := by
          have := List.find?_some hA
          simpa using this
        have htb : tb < lo := by
          have := List.find?_some hB
          simpa using this
        by_cases hcmp : (levelsGet levels tb).getD 0 ≤ (levelsGet levels ta).getD 0
        · have := ih (area + (levelsGet levels ta).getD 0) lo ta
          simp only [vaLoop, if_pos harea, hA, hB, if_pos hcmp]
          exact ⟨this.1, le_trans (le_of_lt hta) this.2⟩
        · have := ih (area + (levelsGet levels tb).getD 0) tb hi
          simp only [vaLoop, if_pos harea, hA, hB, if_neg hcmp]
          exact ⟨le_trans this.1 (le_of_lt htb), this.2⟩
    · simp [vaLoop, harea]

/-- `tick_to_price` is monotone for nonnegative tick sizes. -/
theorem tick_to_price_mono {a b : ℤ} (ts : ℚ) (hts : 0 ≤ ts) (h : a ≤ b) :
    tick_to_price a ts ≤ tick_to_price b ts := by
  unfold tick_to_price
  exact mul_le_mul_of_nonneg_right (by exact_mod_cast h) hts

/-- `price_to_tick` is monotone for positive tick sizes. -/
theorem price_to_tick_mono {p q : ℚ} (ts : ℚ) (hts : 0 < ts) (h : p ≤ q) :
    price_to_tick p ts ≤ price_to_tick q ts := by
  unfold price_to_tick
  exact Int.floor_le_floor (div_le_div_of_nonneg_right h (le_of_lt hts))

/-- Rounding a price down to its bucket never exceeds the price
(`tick_to_price (price_to_tick p) ≤ p`), for positive tick sizes. -/
theorem bucket_le_price (p ts : ℚ) (hts : 0 < ts) :
    tick_to_price (price_to_tick p ts) ts ≤ p := by
  unfold tick_to_price price_to_tick
  have h1 : (⌊p / ts⌋ : ℚ) ≤ p / ts := Int.floor_le _
  calc (⌊p / ts⌋ : ℚ) * ts ≤ p / ts * ts :=
        mul_le_mul_of_nonneg_right h1 (le_of_lt hts)
    _ = p := div_mul_cancel₀ p (ne_of_gt hts)

/-- Inversion of `computeSnapshot`: the snapshot it emits, in terms of the
poc entry selected by `maxByLast` and the value-area loop bounds. -/
theorem computeSnapshot_inv (valueAreaPct tickSize : ℚ) (profile : SymbolProfile)
    (symbol : String) (timestamp : ℤ) (snap : VolumeProfileSnapshot)
    (h : computeSnapshot valueAreaPct tickSize profile symbol timestamp = some snap) :
    ∃ pocEntry, maxByLast profile.levels = some pocEntry ∧
      snap.poc = tick_to_price pocEntry.1 tickSize ∧
      snap.val = tick_to_price
        (vaLoop profile.levels (profile.levels.map fun e => e.1)
          (profile.totalVolume * valueAreaPct)
          ((profile.levels.map fun e => e.1).length + 1)
          ((levelsGet profile.levels pocEntry.1).getD 0) pocEntry.1 pocEntry.1).1 tickSize ∧
      snap.vah = tick_to_price
        (vaLoop profile.levels (profile.levels.map fun e => e.1)
          (profile.totalVolume * valueAreaPct)
          ((profile.levels.map fun e => e.1).length + 1)
          ((levelsGet profile.levels pocEntry.1).getD 0) pocEntry.1 pocEntry.1).2 tickSize ∧
      snap.sessionLow = profile.sessionLow ∧
      snap.sessionHigh = profile.sessionHigh ∧
      snap.symbol = symbol := by
  unfold computeSnapshot at h
  rcases hmax : maxByLast profile.levels with _ | pocEntry
  · rw [hmax] at h; cases h
  · rw [hmax] at h
    have h' := Option.some.inj h
    refine ⟨pocEntry, rfl, ?_⟩
    rw [← h']
    exact ⟨rfl, rfl, rfl, rfl, rfl, rfl⟩

/-- A fresh symbol profile satisfies the profile invariant. -/
theorem profileInv_new (ts : ℚ) (now : ℤ) : ProfileInv ts (SymbolProfile.new now) := by
  constructor
  · simp [SymbolProfile.new, LevelsSorted]
  · intro e he
    simp [SymbolProfile.new] at he

/-- The profile produced by `process_trade`'s mutation pipeline satisfies
the profile invariant, for positive tick size and a positive in-range
price. -/
theorem profileAfterTrade_inv (vp : VolumeProfiler) (tr : NormalizedTrade)
    (hinv : ProfilerInv vp) (hts : 0 < vp.tickSizeFor tr.symbol)
    (hpmax : tr.price < decimalMax) :
    ProfileInv (vp.tickSizeFor tr.symbol) (vp.profileAfterTrade tr) := by
  set ts := vp.tickSizeFor tr.symbol with hts_def
  set p₀ := (vp.profiles tr.symbol).getD (SymbolProfile.new tr.timestamp) with hp₀
  set p₁ := (if vp.sessionResetHours * 3600000 < tr.timestamp - p₀.sessionStart then
      p₀.reset tr.timestamp else p₀) with hp₁
  have hinv₁ : ProfileInv ts p₁ := by
    rw [hp₁]
    by_cases hc : vp.sessionResetHours * 3600000 < tr.timestamp - p₀.sessionStart
    · rw [if_pos hc]
      exact profileInv_new ts tr.timestamp
    · rw [if_neg hc, hp₀]
      cases hmap : vp.profiles tr.symbol with
      | none => exact profileInv_new ts tr.timestamp
      | some p => simpa using hinv tr.symbol p hmap
  have hlv : (vp.profileAfterTrade tr).levels =
      levelsAdd (price_to_tick tr.price ts) tr.quantity p₁.levels := rfl
  have hlow : (vp.profileAfterTrade tr).sessionLow =
      (if tr.price < p₁.sessionLow ∨ p₁.sessionLow = decimalMax then tr.price
        else p₁.sessionLow) := rfl
  have hhigh : (vp.profileAfterTrade tr).sessionHigh =
      (if p₁.sessionHigh < tr.price then tr.price else p₁.sessionHigh) := rfl
  have hlow_le_price : (vp.profileAfterTrade tr).sessionLow ≤ tr.price := by
    rw [hlow]
    by_cases hc : tr.price < p₁.sessionLow ∨ p₁.sessionLow = decimalMax
    · rw [if_pos hc]
    · rw [if_neg hc]
      push_neg at hc
      exact hc.1
  have hlow_le_old : (vp.profileAfterTrade tr).sessionLow ≤ p₁.sessionLow := by
    rw [hlow]
    by_cases hc₁ : tr.price < p₁.sessionLow
    · rw [if_pos (Or.inl hc₁)]
      exact le_of_lt hc₁
    · by_cases hc₂ : p₁.sessionLow = decimalMax
      · rw [if_pos (Or.inr hc₂), hc₂]
        exact le_of_lt hpmax
      · rw [if_neg (by tauto)]
  have hhigh_ge_price : tr.price ≤ (vp.profileAfterTrade tr).sessionHigh := by
    rw [hhigh]
    by_cases hc : p₁.sessionHigh < tr.price
    · rw [if_pos hc]
    · rw [if_neg hc]
      exact le_of_not_lt hc
  have hhigh_ge_old : p₁.sessionHigh ≤ (vp.profileAfterTrade tr).sessionHigh := by
    rw [hhigh]
    by_cases hc : p₁.sessionHigh < tr.price
    · rw [if_pos hc]
      exact le_of_lt hc
    · rw [if_neg hc]
  constructor
  · rw [LevelsSorted, hlv]
    exact levelsAdd_sorted _ _ _ hinv₁.1
  · intro e he
    rw [hlv] at he
    rcases levelsAdd_mem_key _ _ _ e he with hkey | hkey
    · rw [hkey]
      exact ⟨price_to_tick_mono ts hts hlow_le_price,
        price_to_tick_mono ts hts hhigh_ge_price⟩
    · rcases List.mem_map.mp hkey with ⟨x, hx, hxe⟩
      have hold := hinv₁.2 x hx
      rw [← hxe]
      constructor
      · exact le_trans (price_to_tick_mono ts hts hlow_le_old) hold.1
      · exact le_trans hold.2 (price_to_tick_mono ts hts hhigh_ge_old)

/-- `process_trade` preserves the profiler invariant, keeps the tick-size
configuration, and any snapshot it emits is `SnapGood`. -/
theorem profiler_process_trade_inv (vp : VolumeProfiler) (tr : NormalizedTrade)
    (hwf : ProfilerWf vp) (hinv : ProfilerInv vp) (hpmax : tr.price < decimalMax) :
    ProfilerInv (vp.process_trade tr).1 ∧
    (vp.process_trade tr).1.tickSize = vp.tickSize ∧
    (vp.process_trade tr).1.symbolTickSizes = vp.symbolTickSizes ∧
    ∀ snap ∈ (vp.process_trade tr).2, SnapGood vp snap := by
  have hts : 0 < vp.tickSizeFor tr.symbol := by
    unfold VolumeProfiler.tickSizeFor
    cases hsym : vp.symbolTickSizes tr.symbol with
    | none => simpa using hwf.1
    | some t => simpa using hwf.2 tr.symbol t hsym
  have hpf := profileAfterTrade_inv vp tr hinv hts hpmax
  have hinv' : ProfilerInv (vp.process_trade tr).1 := by
    have hprofiles : (vp.process_trade tr).1.profiles =
        fun s => if s = tr.symbol then some (vp.profileAfterTrade tr) else vp.profiles s := by
      unfold VolumeProfiler.process_trade
      by_cases hc : (vp.profileAfterTrade tr).levels.length < 3 <;> simp [hc]
    have htsz : (vp.process_trade tr).1.tickSize = vp.tickSize ∧
        (vp.process_trade tr).1.symbolTickSizes = vp.symbolTickSizes := by
      unfold VolumeProfiler.process_trade
      by_cases hc : (vp.profileAfterTrade tr).levels.length < 3 <;> simp [hc]
    intro sym profile hmap
    have htsf : (vp.process_trade tr).1.tickSizeFor sym = vp.tickSizeFor sym := by
      unfold VolumeProfiler.tickSizeFor
      rw [htsz.1, htsz.2]
    rw [hprofiles] at hmap
    dsimp only at hmap
    rw [htsf]
    by_cases hsym : sym = tr.symbol
    · rw [if_pos hsym] at hmap
      cases hmap
      rw [hsym]
      exact hpf
    · rw [if_neg hsym] at hmap
      exact hinv sym profile hmap
  have htsz : (vp.process_trade tr).1.tickSize = vp.tickSize ∧
      (vp.process_trade tr).1.symbolTickSizes = vp.symbolTickSizes := by
    unfold VolumeProfiler.process_trade
    by_cases hc : (vp.profileAfterTrade tr).levels.length < 3 <;> simp [hc]
  refine ⟨hinv', htsz.1, htsz.2, ?_⟩
  intro snap hsnap
  have hout : (vp.process_trade tr).2 =
      (if (vp.profileAfterTrade tr).levels.length < 3 then none
        else computeSnapshot vp.valueAreaPct (vp.tickSizeFor tr.symbol)
          (vp.profileAfterTrade tr) tr.symbol tr.timestamp) := by
    unfold VolumeProfiler.process_trade
    by_cases hc : (vp.profileAfterTrade tr).levels.length < 3 <;> simp [hc]
  rw [hout] at hsnap
  by_cases hc : (vp.profileAfterTrade tr).levels.length < 3
  · rw [if_pos hc] at hsnap
    cases hsnap
  · rw [if_neg hc] at hsnap
    have hsome : computeSnapshot vp.valueAreaPct (vp.tickSizeFor tr.symbol)
        (vp.profileAfterTrade tr) tr.symbol tr.timestamp = some snap := hsnap
    obtain ⟨pocEntry, hmax, hpoc, hval, hvah, hslow, hshigh, hsym⟩ :=
      computeSnapshot_inv _ _ _ _ _ _ hsome
    obtain ⟨hmem, _, _⟩ := maxByLast_spec _ _ hpf.1 hmax
    have hbound := hpf.2 pocEntry hmem
    have hts' : (0 : ℚ) ≤ vp.tickSizeFor tr.symbol := le_of_lt hts
    have hvabounds := vaLoop_bounds (vp.profileAfterTrade tr).levels
      ((vp.profileAfterTrade tr).levels.map fun e => e.1)
      ((vp.profileAfterTrade tr).totalVolume * vp.valueAreaPct)
      (((vp.profileAfterTrade tr).levels.map fun e => e.1).length + 1)
      ((levelsGet (vp.profileAfterTrade tr).levels pocEntry.1).getD 0) pocEntry.1 pocEntry.1
    have htsfst : vp.tickSizeFor snap.symbol = vp.tickSizeFor tr.symbol := by rw [hsym]
    refine ⟨?_, ?_, ?_, ?_⟩
    · rw [hval, hpoc]
      exact tick_to_price_mono _ hts' hvabounds.1
    · rw [hvah, hpoc]
      exact tick_to_price_mono _ hts' hvabounds.2
    · rw [hpoc, hslow, htsfst]
      exact tick_to_price_mono _ hts' hbound.1
    · rw [hpoc, hshigh]
      calc tick_to_price pocEntry.1 (vp.tickSizeFor tr.symbol) ≤
          tick_to_price (price_to_tick (vp.profileAfterTrade tr).sessionHigh
            (vp.tickSizeFor tr.symbol)) (vp.tickSizeFor tr.symbol) :=
            tick_to_price_mono _ hts' hbound.2
        _ ≤ (vp.profileAfterTrade tr).sessionHigh := bucket_le_price _ _ hts

/-- Over a whole trade sequence, the profiler invariant is preserved, the
tick-size configuration is unchanged, and every emitted snapshot is
`SnapGood`. -/
theorem profiler_processTrades_good (trades : List NormalizedTrade) :
    ∀ vp : VolumeProfiler, ProfilerWf vp → ProfilerInv vp →
      (∀ tr ∈ trades, tr.price < decimalMax) →
      ProfilerInv (vp.processTrades trades).1 ∧
      (vp.processTrades trades).1.tickSize = vp.tickSize ∧
      (vp.processTrades trades).1.symbolTickSizes = vp.symbolTickSizes ∧
      ∀ snap ∈ (vp.processTrades trades).2, SnapGood vp snap := by
  induction trades with
  | nil =>
    intro vp _ hinv _
    exact ⟨hinv, rfl, rfl, by simp [VolumeProfiler.processTrades]⟩
  | cons tr ts ih =>
    intro vp hwf hinv hmax
    obtain ⟨hinv', hts', hsts', hsnaps'⟩ :=
      profiler_process_trade_inv vp tr hwf hinv (hmax tr (by simp))
    have hwf' : ProfilerWf (vp.process_trade tr).1 := by
      constructor
      · rw [hts']
        exact hwf.1
      · rw [hsts']
        exact hwf.2
    obtain ⟨hinv'', hts'', hsts'', hsnaps''⟩ :=
      ih (vp.process_trade tr).1 hwf' hinv' fun t ht => hmax t (by simp [ht])
    have htsf : ∀ s, (vp.process_trade tr).1.tickSizeFor s = vp.tickSizeFor s := by
      intro s
      unfold VolumeProfiler.tickSizeFor
      rw [hts', hsts']
    refine ⟨?_, ?_, ?_, ?_⟩
    · simpa [VolumeProfiler.processTrades] using hinv''
    · simp only [VolumeProfiler.processTrades]
      rw [hts'', hts']
    · simp only [VolumeProfiler.processTrades]
      rw [hsts'', hsts']
    · intro snap hsnap
      simp only [VolumeProfiler.processTrades, List.mem_append] at hsnap
      rcases hsnap with hsnap | hsnap
      · rcases hout : (vp.process_trade tr).2 with _ | s
        · simp [hout] at hsnap
        · simp only [hout, Option.toList_some, List.mem_singleton] at hsnap
          subst hsnap
          exact hsnaps' snap (by simp [hout])
      · have hgood := hsnaps'' snap hsnap
        unfold SnapGood at hgood ⊢
        rwa [htsf] at hgood

set_option maxRecDepth 100000 in
set_option maxHeartbeats 4000000 in
/-- Evaluation of the `c4Trades` run: exactly one snapshot, `c4RunSnapshot`. -/
theorem c4_run_eq : (c5Profiler.processTrades c4Trades).2 = [c4RunSnapshot] := by
  norm_num [c4Trades, c4RunSnapshot, c5Profiler, initProfiler, VolumeProfiler.processTrades,
    VolumeProfiler.process_trade, VolumeProfiler.profileAfterTrade,
    VolumeProfiler.tickSizeFor, SymbolProfile.new, SymbolProfile.reset,
    SymbolProfile.cleanOldTrades, SymbolProfile.calculateVwap, SymbolProfile.findHvn,
    levelsAdd, levelsGet, price_to_tick, tick_to_price, decimalMax, computeSnapshot,
    maxByLast, vaLoop, next_tick_above, next_tick_below] <;> simp

/-- C4 counterexample: with tick size 1, the trades 5.9×10, 7.1×1, 8.1×1
produce a snapshot whose poc is the bucket price 5 while the session low is
5.9 — `session_low ≤ poc` fails, because the poc is quantized down to the
bucket floor. -/
theorem snapshot_session_low_counterexample :
    ((c5Profiler.processTrades c4Trades).2.map fun s => (s.poc, s.sessionLow)) = [(5, 5.9)] ∧
    ¬ ((5.9 : ℚ) ≤ 5) := by
  rw [c4_run_eq]
  constructor
  · norm_num [c4RunSnapshot]
  · norm_num

/-- C4 amended: every snapshot emitted by the profiler (positive tick
sizes, prices within the `Decimal` range) satisfies `val ≤ poc ≤ vah` and
`bucket(session_low) ≤ poc ≤ session_high`, where `bucket` floors a price
to its tick bucket — the unquantized `session_low` itself can exceed the
poc. -/
theorem volume_profile_snapshot_bounds (tickSize valueAreaPct : ℚ) (resetHours : ℤ)
    (symbolTicks : String → Option ℚ) (trades : List NormalizedTrade)
    (snap : VolumeProfileSnapshot)
    (hts : 0 < tickSize)
    (hsymts : ∀ s t, symbolTicks s = some t → 0 < t)
    (hprice : ∀ tr ∈ trades, tr.price < decimalMax)
    (hsnap : snap ∈
      ((initProfiler tickSize valueAreaPct resetHours symbolTicks).processTrades trades).2) :
    snap.val ≤ snap.poc ∧ snap.poc ≤ snap.vah ∧
    tick_to_price (price_to_tick snap.sessionLow ((symbolTicks snap.symbol).getD tickSize))
        ((symbolTicks snap.symbol).getD tickSize) ≤ snap.poc ∧
    snap.poc ≤ snap.sessionHigh := by
  have hwf : ProfilerWf (initProfiler tickSize valueAreaPct resetHours symbolTicks) := by
    constructor
    · simpa [initProfiler] using hts
    · intro s t hst
      exact hsymts s t (by simpa [initProfiler] using hst)
  have hinv : ProfilerInv (initProfiler tickSize valueAreaPct resetHours symbolTicks) := by
    intro sym profile hmap
    simp [initProfiler] at hmap
  have h := (profiler_processTrades_good trades _ hwf hinv hprice).2.2.2 snap hsnap
  unfold SnapGood at h
  simpa [initProfiler, VolumeProfiler.tickSizeFor] using h

/-- Witness for `volume_profile_snapshot_bounds`: the single snapshot of
the `c4Trades` run satisfies all four bounds. -/
theorem volume_profile_snapshot_bounds_witness :
    ∃ snap ∈ ((initProfiler 1 0.7 8 fun _ => none).processTrades c4Trades).2,
      snap.val ≤ snap.poc ∧ snap.poc ≤ snap.vah ∧
      tick_to_price (price_to_tick snap.sessionLow (((fun _ : String => (none : Option ℚ))
          snap.symbol).getD 1)) (((fun _ : String => (none : Option ℚ)) snap.symbol).getD 1) ≤
        snap.poc ∧
      snap.poc ≤ snap.sessionHigh := by
  have hrun : ((initProfiler 1 0.7 8 fun _ => none).processTrades c4Trades).2 =
      [c4RunSnapshot] := c4_run_eq
  refine ⟨c4RunSnapshot, by rw [hrun]; simp, ?_⟩
  exact volume_profile_snapshot_bounds 1 0.7 8 (fun _ => none) c4Trades c4RunSnapshot
    (by norm_num)
    (by intro s' t h; cases h)
    (by
      intro tr htr
      simp only [c4Trades, List.mem_cons, List.not_mem_nil, or_false] at htr
      rcases htr with rfl | rfl | rfl <;> norm_num [decimalMax])
    (by rw [hrun]; simp)

set_option maxRecDepth 100000 in
set_option maxHeartbeats 4000000 in
/-- Evaluation of the `c5Trades` run: one snapshot and the stored profile. -/
theorem c5_run_eq :
    (c5Profiler.processTrades c5Trades).2 = [c5RunSnapshot] ∧
    (c5Profiler.processTrades c5Trades).1.profiles "adausdt" = some c5FinalProfile := by
  constructor <;>
    norm_num [c5Trades, c5RunSnapshot, c5FinalProfile, c5Profiler, initProfiler,
      VolumeProfiler.processTrades, VolumeProfiler.process_trade,
      VolumeProfiler.profileAfterTrade, VolumeProfiler.tickSizeFor, SymbolProfile.new,
      SymbolProfile.reset, SymbolProfile.cleanOldTrades, SymbolProfile.calculateVwap,
      SymbolProfile.findHvn, levelsAdd, levelsGet, price_to_tick, tick_to_price, decimalMax,
      computeSnapshot, maxByLast, vaLoop, next_tick_above, next_tick_below] <;> simp

/-- C5 counterexample: ticks 5 and 7 tie at volume 3; the snapshot's poc is
7 (the LAST maximal entry in ascending iteration order) while the claimed
earliest/lowest tied tick is 5. -/
theorem poc_tie_counterexample :
    ((c5Profiler.processTrades c5Trades).2.map fun s => s.poc) = [7] ∧
    (((c5Profiler.processTrades c5Trades).1.profiles "adausdt").map fun p =>
      firstMaxVolumeTick? p.levels) = some (some 5) ∧
    tick_to_price 5 1 ≠ (7 : ℚ) := by
  refine ⟨?_, ?_, by norm_num [tick_to_price]⟩
  · rw [c5_run_eq.1]
    norm_num [c5RunSnapshot]
  · rw [c5_run_eq.2]
    norm_num [c5FinalProfile, firstMaxVolumeTick?]

/-- C5 amended: the poc tick selected by `compute_snapshot` is a
maximal-volume tick and, among tied maxima, the LARGEST tick — the last in
the backing map's ascending iteration order, per Rust's `max_by` tie rule. -/
theorem poc_selects_last_max (valueAreaPct tickSize : ℚ) (profile : SymbolProfile)
    (symbol : String) (timestamp : ℤ) (snap : VolumeProfileSnapshot)
    (hsort : LevelsSorted profile.levels)
    (h : computeSnapshot valueAreaPct tickSize profile symbol timestamp = some snap) :
    ∃ e ∈ profile.levels, snap.poc = tick_to_price e.1 tickSize ∧
      (∀ y ∈ profile.levels, y.2 ≤ e.2) ∧
      (∀ y ∈ profile.levels, y.2 = e.2 → y.1 ≤ e.1) := by
  obtain ⟨pocEntry, hmax, hpoc, -⟩ := computeSnapshot_inv _ _ _ _ _ _ h
  obtain ⟨hmem, hge, htie⟩ := maxByLast_spec _ _ hsort hmax
  exact ⟨pocEntry, hmem, hpoc, hge, htie⟩

set_option maxRecDepth 100000 in
set_option maxHeartbeats 2000000 in
/-- Witness for `poc_selects_last_max` at `c5Profile`: the selected entry
is `(7, 3)`, not the tied lower tick 5. -/
theorem poc_selects_last_max_witness :
    ∃ e ∈ c5Profile.levels, c5Snapshot.poc = tick_to_price e.1 1 ∧
      (∀ y ∈ c5Profile.levels, y.2 ≤ e.2) ∧
      (∀ y ∈ c5Profile.levels, y.2 = e.2 → y.1 ≤ e.1) :=
  poc_selects_last_max 0.7 1 c5Profile "adausdt" 2 c5Snapshot
    (by simp [c5Profile, LevelsSorted])
    (by norm_num [c5Profile, c5Snapshot, computeSnapshot, maxByLast, levelsGet,
      vaLoop, next_tick_above, next_tick_below, tick_to_price,
      SymbolProfile.calculateVwap, SymbolProfile.findHvn])

/-! ### Index lemmas for the risk manager's symbol → ids map -/

/-- Unfolding `idxLookup` over a cons cell. -/
theorem idxLookup_cons (s' : String) (ids : List String)
    (rest : List (String × List String)) (s : String) :
    idxLookup ((s', ids) :: rest) s = if s' = s then some ids else idxLookup rest s := by
  unfold idxLookup
  by_cases h : s' = s
  · rw [List.find?_cons_of_pos _ (by simpa using h), if_pos h]
    rfl
  · rw [List.find?_cons_of_neg _ (by simpa using h), if_neg h]

/-- Lookup after `idxRegister` on the registered symbol. -/
theorem idxLookup_register_self (symbol id : String) :
    ∀ idx, idxLookup (idxRegister symbol id idx) symbol =
      some ((idxLookup idx symbol).getD [] ++ [id]) := by
  intro idx
  induction idx with
  | nil => simp [idxRegister, idxLookup]
  | cons e rest ih =>
    obtain ⟨s, ids⟩ := e
    by_cases hs : s = symbol
    · rw [show idxRegister symbol id ((s, ids) :: rest) = (s, ids ++ [id]) :: rest by
        simp [idxRegister, hs]]
      rw [idxLookup_cons, if_pos hs, idxLookup_cons, if_pos hs]
      simp
    · rw [show idxRegister symbol id ((s, ids) :: rest) =
          (s, ids) :: idxRegister symbol id rest by simp [idxRegister, hs]]
      rw [idxLookup_cons, if_neg hs, idxLookup_cons, if_neg hs]
      exact ih

/-- Lookup after `idxRegister` on a different symbol. -/
theorem idxLookup_register_other (symbol id s : String) (hs : s ≠ symbol) :
    ∀ idx, idxLookup (idxRegister symbol id idx) s = idxLookup idx s := by
  intro idx
  induction idx with
  | nil =>
    rw [show idxRegister symbol id [] = [(symbol, [id])] from rfl, idxLookup_cons,
      if_neg fun h => hs h.symm]
  | cons e rest ih =>
    obtain ⟨s', ids⟩ := e
    by_cases hs' : s' = symbol
    · rw [show idxRegister symbol id ((s', ids) :: rest) = (s', ids ++ [id]) :: rest by
        simp [idxRegister, hs']]
      rw [idxLookup_cons, idxLookup_cons, if_neg (by rintro rfl; exact hs hs'),
        if_neg (by rintro rfl; exact hs hs')]
    · rw [show idxRegister symbol id ((s', ids) :: rest) =
          (s', ids) :: idxRegister symbol id rest by simp [idxRegister, hs']]
      rw [idxLookup_cons, idxLookup_cons]
      by_cases hcur : s' = s
      · rw [if_pos hcur, if_pos hcur]
      · rw [if_neg hcur, if_neg hcur]
        exact ih

/-- Lookup after `idxRemove` on the removed symbol. -/
theorem idxLookup_remove_self (symbol id : String) :
    ∀ idx, idxLookup (idxRemove symbol id idx) symbol =
      (idxLookup idx symbol).map fun ids => ids.filter fun x => x ≠ id := by
  intro idx
  induction idx with
  | nil => simp [idxRemove, idxLookup]
  | cons e rest ih =>
    obtain ⟨s, ids⟩ := e
    by_cases hs : s = symbol
    · rw [show idxRemove symbol id ((s, ids) :: rest) =
          (s, ids.filter fun x => x ≠ id) :: rest by simp [idxRemove, hs]]
      rw [idxLookup_cons, if_pos hs, idxLookup_cons, if_pos hs]
      rfl
    · rw [show idxRemove symbol id ((s, ids) :: rest) =
          (s, ids) :: idxRemove symbol id rest by simp [idxRemove, hs]]
      rw [idxLookup_cons, if_neg hs, idxLookup_cons, if_neg hs]
      exact ih

/-- Lookup after `idxRemove` on a different symbol. -/
theorem idxLookup_remove_other (symbol id s : String) (hs : s ≠ symbol) :
    ∀ idx, idxLookup (idxRemove symbol id idx) s = idxLookup idx s := by
  intro idx
  induction idx with
  | nil => simp [idxRemove]
  | cons e rest ih =>
    obtain ⟨s', ids⟩ := e
    by_cases hs' : s' = symbol
    · rw [show idxRemove symbol id ((s', ids) :: rest) =
          (s', ids.filter fun x => x ≠ id) :: rest by simp [idxRemove, hs']]
      rw [idxLookup_cons, idxLookup_cons, if_neg (by rintro rfl; exact hs hs'),
        if_neg (by rintro rfl; exact hs hs')]
    · rw [show idxRemove symbol id ((s', ids) :: rest) =
          (s', ids) :: idxRemove symbol id rest by simp [idxRemove, hs']]
      rw [idxLookup_cons, idxLookup_cons]
      by_cases hcur : s' = s
      · rw [if_pos hcur, if_pos hcur]
      · rw [if_neg hcur, if_neg hcur]
        exact ih

/-- A passing `can_trade` means the signal's symbol has no indexed open
position ids. -/
theorem can_trade_symbol_clear (rm : RiskManager) (signal : TradeSignal)
    (h : can_trade rm signal = true) :
    idxLookup rm.openIndex signal.symbol = none ∨
      idxLookup rm.openIndex signal.symbol = some [] := by
  unfold can_trade at h
  by_cases h1 : rm.dailyHalted
  · rw [if_pos h1] at h; cases h
  · rw [if_neg h1] at h
    by_cases h2 : rm.maxConcurrent ≤ (rm.openIndex.map fun e => e.2.length).sum
    · rw [if_pos h2] at h; cases h
    · rw [if_neg h2] at h
      cases hlk : idxLookup rm.openIndex signal.symbol with
      | none => exact Or.inl rfl
      | some ids =>
        rw [hlk] at h
        right
        rw [List.isEmpty_iff.mp h]

/-! ### Pointwise-preservation lemmas for manager mutations -/

/-- `PosPres` is reflexive, list-wise. -/
theorem posPres_refl_list : ∀ l : List Position, List.Forall₂ PosPres l l := by
  intro l
  induction l with
  | nil => exact List.Forall₂.nil
  | cons p rest ih => exact List.Forall₂.cons ⟨rfl, rfl, fun h => h⟩ ih

/-- `mutateFirstOpen` relates input and output lists pointwise by `PosPres`
whenever the mutation itself does. -/
theorem mutateFirstOpen_forall₂ (pid : String) (f : Position → Position)
    (hf : ∀ p, PosPres p (f p)) :
    ∀ ps : List Position, List.Forall₂ PosPres ps (mutateFirstOpen pid f ps).1 := by
  intro ps
  induction ps with
  | nil => simp [mutateFirstOpen]
  | cons p rest ih =>
    by_cases hc : p.id = pid ∧ p.status = PositionStatus.Open
    · simp only [mutateFirstOpen, if_pos hc]
      exact List.Forall₂.cons (hf p) (posPres_refl_list rest)
    · simp only [mutateFirstOpen, if_neg hc]
      exact List.Forall₂.cons ⟨rfl, rfl, fun h => h⟩ ih

/-- Right-membership inversion for `Forall₂`. -/
theorem forall₂_mem_right {R : Position → Position → Prop} :
    ∀ {l l' : List Position}, List.Forall₂ R l l' → ∀ q ∈ l', ∃ p ∈ l, R p q := by
  intro l l' h
  induction h with
  | nil => intro q hq; cases hq
  | cons hr _ ih =>
    intro q hq
    rcases List.mem_cons.mp hq with rfl | hq'
    · exact ⟨_, by simp, hr⟩
    · obtain ⟨p, hp, hpr⟩ := ih q hq'
      exact ⟨p, by simp [hp], hpr⟩

/-- `Forall₂ PosPres` preserves the id list. -/
theorem forall₂_map_id {l l' : List Position} (h : List.Forall₂ PosPres l l') :
    (l'.map fun p => p.id) = l.map fun p => p.id := by
  induction h with
  | nil => rfl
  | cons hr _ ih => simp [hr.1, ih]

/-- `Forall₂ PosPres` preserves the pairwise distinct-open-symbol property. -/
theorem forall₂_pairwise_open {l l' : List Position} (h : List.Forall₂ PosPres l l')
    (hp : l.Pairwise fun p q =>
      p.status = PositionStatus.Open → q.status = PositionStatus.Open → p.symbol ≠ q.symbol) :
    l'.Pairwise fun p q =>
      p.status = PositionStatus.Open → q.status = PositionStatus.Open → p.symbol ≠ q.symbol := by
  induction h with
  | nil => exact List.Pairwise.nil
  | cons hr htail ih =>
    rename_i p q ps qs
    rw [List.pairwise_cons] at hp ⊢
    refine ⟨?_, ih hp.2⟩
    intro q' hq' hqopen hq'open
    obtain ⟨p', hp', hpr'⟩ := forall₂_mem_right htail q' hq'
    rw [hr.2.1, hpr'.2.1]
    exact hp.1 p' hp' (hr.2.2 hqopen) (hpr'.2.2 hq'open)

/-- `Forall₂ PosPres` with an unchanged risk index preserves the sync part
of the invariant. -/
theorem forall₂_sync {l l' : List Position} (idx : List (String × List String))
    (h : List.Forall₂ PosPres l l')
    (hs : ∀ p ∈ l, p.status = PositionStatus.Open →
      ∃ ids, idxLookup idx p.symbol = some ids ∧ p.id ∈ ids) :
    ∀ q ∈ l', q.status = PositionStatus.Open →
      ∃ ids, idxLookup idx q.symbol = some ids ∧ q.id ∈ ids := by
  intro q hq hopen
  obtain ⟨p, hp, hpr⟩ := forall₂_mem_right h q hq
  obtain ⟨ids, hlk, hmem⟩ := hs p hp (hpr.2.2 hopen)
  exact ⟨ids, by rw [hpr.2.1]; exact hlk, by rw [hpr.1]; exact hmem⟩

/-- A position-list transformation that is `Forall₂ PosPres` (risk state
untouched) preserves the engine invariant. -/
theorem engineInv_of_forall₂ (s : EngineState) (ps' : List Position)
    (hinv : EngineInv s) (h : List.Forall₂ PosPres s.positions ps') :
    EngineInv ⟨ps', s.risk⟩ := by
  obtain ⟨hnodup, hsync, hpair⟩ := hinv
  refine ⟨?_, ?_, ?_⟩
  · rw [forall₂_map_id h]
    exact hnodup
  · exact forall₂_sync s.risk.openIndex h hsync
  · exact forall₂_pairwise_open h hpair

/-- The three per-position mutations used by close/liquidate paths satisfy
`PosPres`. -/
theorem posPres_mutations (exitPrice feeRate q1 px1 stopPrice : ℚ) (now : ℤ) :
    (∀ p, PosPres p (closePosMutation p exitPrice feeRate now)) ∧
    (∀ p, PosPres p (liquidateMutation p feeRate now)) ∧
    (∀ p, PosPres p ((closePartialMutation p q1 px1 feeRate).1)) ∧
    (∀ p, PosPres p (moveStopMutation p stopPrice)) ∧
    (∀ p, PosPres p (markTp1Mutation p stopPrice)) := by
  refine ⟨?_, ?_, ?_, ?_, ?_⟩ <;>
    intro p <;>
      exact ⟨rfl, rfl, by
        intro h
        first
          | cases h
          | exact h
          | simpa [closePosMutation, liquidateMutation, closePartialMutation,
              moveStopMutation, markTp1Mutation] using h⟩

/-- One engine step preserves the engine invariant. -/
theorem engineStep_preserves_inv (s s' : EngineState) (hstep : EngineStep s s')
    (hinv : EngineInv s) : EngineInv s' := by
  obtain ⟨hnodup, hsync, hpair⟩ := hinv
  cases hstep with
  | openSignal signal quantity leverage marginType mmr takerFee id now hct hfresh =>
    set newPos := open_position signal quantity leverage marginType mmr takerFee id now
      with hnp
    have hnpid : newPos.id = id := rfl
    have hnpsym : newPos.symbol = signal.symbol := rfl
    have hnpopen : newPos.status = PositionStatus.Open := rfl
    have hclear := can_trade_symbol_clear s.risk signal hct
    have hnoopen : ∀ p ∈ s.positions, p.status = PositionStatus.Open →
        p.symbol ≠ signal.symbol := by
      intro p hp hopen hsym
      obtain ⟨ids, hlk, hmem⟩ := hsync p hp hopen
      rw [hsym] at hlk
      rcases hclear with hc | hc
      · rw [hc] at hlk; cases hlk
      · rw [hc] at hlk
        cases Option.some.inj hlk
        cases hmem
    refine ⟨?_, ?_, ?_⟩
    · dsimp only [register_position]
      rw [List.map_append]
      refine List.Nodup.append hnodup (by simp) ?_
      intro a ha hb
      simp only [List.map_cons, List.map_nil, List.mem_singleton] at hb
      rw [hb] at ha
      exact hfresh (by simpa [hnpid] using ha)
    · intro p hp hopen
      dsimp only [register_position]
      rcases List.mem_append.mp hp with hp' | hp'
      · by_cases hsym : p.symbol = signal.symbol
        · exact absurd hsym (hnoopen p hp' hopen)
        · obtain ⟨ids, hlk, hmem⟩ := hsync p hp' hopen
          refine ⟨ids, ?_, hmem⟩
          rw [← hlk]
          exact idxLookup_register_other signal.symbol id p.symbol hsym _
      · rw [List.mem_singleton.mp hp']
        rw [hnpsym, hnpid]
        refine ⟨(idxLookup s.risk.openIndex signal.symbol).getD [] ++ [id], ?_, by simp⟩
        exact idxLookup_register_self signal.symbol id _
    · rw [List.pairwise_append]
      refine ⟨hpair, by simp, ?_⟩
      intro p hp q hq
      rw [List.mem_singleton.mp hq]
      intro hopen hnew
      rw [hnpsym]
      exact hnoopen p hp hopen
  | closePos pid exitPrice feeRate now =>
    exact engineInv_of_forall₂ s _ ⟨hnodup, hsync, hpair⟩
      (mutateFirstOpen_forall₂ pid _
        (posPres_mutations exitPrice feeRate 0 0 0 now).1 s.positions)
  | liquidate pid feeRate now =>
    exact engineInv_of_forall₂ s _ ⟨hnodup, hsync, hpair⟩
      (mutateFirstOpen_forall₂ pid _
        (posPres_mutations 0 feeRate 0 0 0 now).2.1 s.positions)
  | partialFill pid closeQuantity exitPrice feeRate =>
    unfold close_partialM
    cases hf : s.positions.find? fun p => p.id = pid ∧ p.status = PositionStatus.Open with
    | none => simpa [hf] using (⟨hnodup, hsync, hpair⟩ : EngineInv s)
    | some p =>
      by_cases hq : p.quantity ≤ closeQuantity
      · simpa [hf, hq] using (⟨hnodup, hsync, hpair⟩ : EngineInv s)
      · have := engineInv_of_forall₂ s _ ⟨hnodup, hsync, hpair⟩
          (mutateFirstOpen_forall₂ pid _
            (posPres_mutations 0 feeRate closeQuantity exitPrice 0 0).2.2.1 s.positions)
        simpa [hf, hq] using this
  | moveStop pid stopPrice =>
    exact engineInv_of_forall₂ s _ ⟨hnodup, hsync, hpair⟩
      (mutateFirstOpen_forall₂ pid _
        (posPres_mutations 0 0 0 0 stopPrice 0).2.2.2.1 s.positions)
  | markTp1 pid stopPrice =>
    exact engineInv_of_forall₂ s _ ⟨hnodup, hsync, hpair⟩
      (mutateFirstOpen_forall₂ pid _
        (posPres_mutations 0 0 0 0 stopPrice 0).2.2.2.2 s.positions)
  | reportClosed p hmem hst =>
    refine ⟨hnodup, ?_, hpair⟩
    intro q hq hopen
    obtain ⟨ids, hlk, hqmem⟩ := hsync q hq hopen
    dsimp only [riskClosePosition]
    by_cases hsym : q.symbol = p.symbol
    · have hqp : q ≠ p := by
        intro h
        rw [h] at hopen
        exact hst hopen
      have hqid : q.id ≠ p.id := by
        intro h
        exact hqp (List.inj_on_of_nodup_map hnodup hq hmem h)
      refine ⟨ids.filter fun x => x ≠ p.id, ?_, ?_⟩
      · rw [hsym, idxLookup_remove_self p.symbol p.id s.risk.openIndex, ← hsym, hlk]
        rfl
      · rw [List.mem_filter]
        exact ⟨hqmem, by simpa using hqid⟩
    · refine ⟨ids, ?_, hqmem⟩
      rw [idxLookup_remove_other p.symbol p.id q.symbol hsym s.risk.openIndex]
      exact hlk

/-- The invariant holds in every reachable engine state. -/
theorem engineInv_reachable (balance dailyLimit breakEvenTicks : ℚ) (maxConcurrent : ℕ)
    (s : EngineState)
    (h : EngineReachable balance dailyLimit breakEvenTicks maxConcurrent s) :
    EngineInv s := by
  induction h with
  | refl =>
    refine ⟨by simp [initEngine], ?_, by simp [initEngine]⟩
    intro p hp
    simp [initEngine] at hp
  | tail _ hstep ih => exact engineStep_preserves_inv _ _ hstep ih

/-- C7: in every state the simulator pipeline can reach, no two Open
positions share a symbol, and `can_trade` returns false for any signal
whose symbol already has an open position. -/
theorem open_positions_symbol_unique (balance dailyLimit breakEvenTicks : ℚ)
    (maxConcurrent : ℕ) (s : EngineState)
    (h : EngineReachable balance dailyLimit breakEvenTicks maxConcurrent s) :
    (s.positions.Pairwise fun p q =>
      p.status = PositionStatus.Open → q.status = PositionStatus.Open →
        p.symbol ≠ q.symbol) ∧
    ∀ signal : TradeSignal,
      (∃ p ∈ s.positions, p.status = PositionStatus.Open ∧ p.symbol = signal.symbol) →
      can_trade s.risk signal = false := by
  obtain ⟨hnodup, hsync, hpair⟩ := engineInv_reachable _ _ _ _ s h
  refine ⟨hpair, ?_⟩
  intro signal ⟨p, hp, hopen, hsym⟩
  obtain ⟨ids, hlk, hmem⟩ := hsync p hp hopen
  rw [hsym] at hlk
  unfold can_trade
  by_cases h1 : s.risk.dailyHalted
  · rw [if_pos h1]
  · rw [if_neg h1]
    by_cases h2 : s.risk.maxConcurrent ≤ (s.risk.openIndex.map fun e => e.2.length).sum
    · rw [if_pos h2]
    · rw [if_neg h2, hlk]
      cases ids with
      | nil => cases hmem
      | cons a rest => rfl

/-- Witness for `open_positions_symbol_unique`: from the start state, one
accepted signal opens a position on btcusdt; in the resulting state a
second btcusdt signal is rejected by `can_trade`. -/
theorem open_positions_symbol_unique_witness :
    (c7State.positions.Pairwise fun p q =>
      p.status = PositionStatus.Open → q.status = PositionStatus.Open →
        p.symbol ≠ q.symbol) ∧
    can_trade c7State.risk c7Signal2 = false := by
  have hstep := EngineStep.openSignal (initEngine 10000 300 5 2) c7Signal 1 100
    MarginType.Isolated 0.004 0.0004 "pos7" 0
    (by simp [can_trade, initEngine, idxLookup])
    (by simp [initEngine])
  have heq : (⟨(initEngine 10000 300 5 2).positions ++
      [open_position c7Signal 1 100 MarginType.Isolated 0.004 0.0004 "pos7" 0],
      register_position (initEngine 10000 300 5 2).risk
        (open_position c7Signal 1 100 MarginType.Isolated 0.004 0.0004 "pos7" 0)⟩ :
      EngineState) = c7State := by
    simp only [initEngine, register_position, c7State, c7Pos]
    norm_num [idxRegister, open_position, c7Signal, EngineState.mk.injEq,
      RiskManager.mk.injEq]
  have hreach : EngineReachable 10000 300 5 2 c7State := by
    rw [← heq]
    exact Relation.ReflTransGen.single hstep
  have h := open_positions_symbol_unique 10000 300 5 2 c7State hreach
  refine ⟨h.1, h.2 c7Signal2 ⟨c7Pos, by simp [c7State], rfl, rfl⟩⟩


/-! ## C9: order-book update idempotence -/

-- lookup lemmas

theorem sideLookup_cons (a b p : ℚ) (rest : BookSide) :
    sideLookup p ((a, b) :: rest) = if a = p then some b else sideLookup p rest := rfl

theorem sideLookup_some_key (p : ℚ) (q : ℚ) :
    ∀ m : BookSide, sideLookup p m = some q → (p, q) ∈ m := by
  intro m
  induction m with
  | nil => intro h; cases h
  | cons e rest ih =>
    obtain ⟨a, b⟩ := e
    intro h
    rw [sideLookup_cons] at h
    by_cases he : a = p
    · rw [if_pos he] at h
      have hb : b = q := Option.some.inj h
      rw [← he, ← hb]
      exact List.mem_cons_self _ _
    · rw [if_neg he] at h
      exact List.mem_cons_of_mem _ (ih h)

theorem sideLookup_eq_none (p : ℚ) (m : BookSide) (h : ∀ e ∈ m, p < e.1) :
    sideLookup p m = none := by
  cases hl : sideLookup p m with
  | none => rfl
  | some q =>
    have := h _ (sideLookup_some_key p q m hl)
    simp at this

theorem sideLookup_of_mem (p q : ℚ) :
    ∀ m : BookSide, SideSorted m → (p, q) ∈ m → sideLookup p m = some q := by
  intro m
  induction m with
  | nil => intro _ h; cases h
  | cons e rest ih =>
    intro hs hm
    rw [SideSorted, List.pairwise_cons] at hs
    rcases List.mem_cons.mp hm with heq | hm'
    · rw [← heq, sideLookup_cons, if_pos rfl]
    · obtain ⟨a, b⟩ := e
      have hlt : a < p := hs.1 _ hm'
      rw [sideLookup_cons, if_neg fun h : a = p => lt_irrefl p (h ▸ hlt)]
      exact ih hs.2 hm'

theorem sideLookup_insert (price qty p : ℚ) :
    ∀ m : BookSide, sideLookup p (sideInsert price qty m) =
      if price = p then some qty else sideLookup p m := by
  intro m
  induction m with
  | nil => simp [sideInsert, sideLookup]
  | cons e rest ih =>
    obtain ⟨p', q'⟩ := e
    unfold sideInsert
    by_cases h1 : price = p'
    · rw [if_pos h1, sideLookup_cons, sideLookup_cons]
      by_cases h2 : p' = p
      · rw [if_pos h2, if_pos (h1.trans h2)]
      · rw [if_neg h2, if_neg (fun h : price = p => h2 (h1.symm.trans h)), if_neg h2]
    · rw [if_neg h1]
      by_cases h2 : price < p'
      · rw [if_pos h2, sideLookup_cons, sideLookup_cons]
      · rw [if_neg h2, sideLookup_cons, sideLookup_cons]
        by_cases h4 : p' = p
        · rw [if_pos h4, if_pos h4, if_neg (fun h : price = p => h1 (h.trans h4.symm))]
        · rw [if_neg h4, if_neg h4, ih]

theorem sideErase_sublist (price : ℚ) :
    ∀ m : BookSide, (sideErase price m).Sublist m := by
  intro m
  induction m with
  | nil => simp [sideErase]
  | cons e rest ih =>
    obtain ⟨p', q'⟩ := e
    unfold sideErase
    by_cases h : price = p'
    · rw [if_pos h]; exact (List.sublist_cons_self _ _)
    · rw [if_neg h]; exact ih.cons₂ _

theorem sideLookup_erase (price p : ℚ) :
    ∀ m : BookSide, SideSorted m →
      sideLookup p (sideErase price m) = if price = p then none else sideLookup p m := by
  intro m
  induction m with
  | nil => simp [sideErase, sideLookup]
  | cons e rest ih =>
    obtain ⟨p', q'⟩ := e
    intro hs
    rw [SideSorted, List.pairwise_cons] at hs
    unfold sideErase
    by_cases h1 : price = p'
    · rw [if_pos h1]
      by_cases h2 : price = p
      · rw [if_pos h2]
        exact sideLookup_eq_none p rest fun e he => h2 ▸ h1 ▸ hs.1 e he
      · rw [if_neg h2, sideLookup_cons, if_neg (fun h : p' = p => h2 (h1.trans h))]
    · rw [if_neg h1, sideLookup_cons, sideLookup_cons]
      by_cases h3 : p' = p
      · rw [if_pos h3, if_pos h3, if_neg (fun h : price = p => h1 (h.trans h3.symm))]
      · rw [if_neg h3, if_neg h3, ih hs.2]

-- sortedness preservation

theorem mem_sideInsert (price qty : ℚ) (a : ℚ × ℚ) :
    ∀ m : BookSide, a ∈ sideInsert price qty m → a.1 = price ∨ a ∈ m := by
  intro m
  induction m with
  | nil =>
    intro h
    simp only [sideInsert, List.mem_singleton] at h
    left; rw [h]
  | cons e rest ih =>
    obtain ⟨p', q'⟩ := e
    intro h
    unfold sideInsert at h
    by_cases h1 : price = p'
    · rw [if_pos h1] at h
      rcases List.mem_cons.mp h with rfl | h'
      · left; exact h1.symm
      · right; exact List.mem_cons_of_mem _ h'
    · rw [if_neg h1] at h
      by_cases h2 : price < p'
      · rw [if_pos h2] at h
        rcases List.mem_cons.mp h with rfl | h'
        · left; rfl
        · right; exact h'
      · rw [if_neg h2] at h
        rcases List.mem_cons.mp h with rfl | h'
        · right; exact List.mem_cons_self _ _
        · rcases ih h' with ha | ha
          · left; exact ha
          · right; exact List.mem_cons_of_mem _ ha

theorem sideInsert_sorted (price qty : ℚ) :
    ∀ m : BookSide, SideSorted m → SideSorted (sideInsert price qty m) := by
  intro m
  induction m with
  | nil => intro _; simp [sideInsert, SideSorted]
  | cons e rest ih =>
    obtain ⟨p', q'⟩ := e
    intro hs
    rw [SideSorted, List.pairwise_cons] at hs
    unfold sideInsert
    by_cases h1 : price = p'
    · rw [if_pos h1]
      exact List.pairwise_cons.mpr ⟨hs.1, hs.2⟩
    · rw [if_neg h1]
      by_cases h2 : price < p'
      · rw [if_pos h2]
        refine List.pairwise_cons.mpr ⟨?_, List.pairwise_cons.mpr ⟨hs.1, hs.2⟩⟩
        intro f hf
        rcases List.mem_cons.mp hf with rfl | hf'
        · exact h2
        · exact h2.trans (hs.1 _ hf')
      · rw [if_neg h2]
        have hgt : p' < price := lt_of_le_of_ne (le_of_not_lt h2) (Ne.symm h1)
        refine List.pairwise_cons.mpr ⟨?_, ih hs.2⟩
        intro f hf
        rcases mem_sideInsert price qty f rest hf with ha | ha
        · rw [ha]; exact hgt
        · exact hs.1 _ ha

theorem applyDeltas_sorted (L : List DepthLevel) :
    ∀ m : BookSide, SideSorted m → SideSorted (applyDeltas m L) := by
  induction L with
  | nil => intro m hm; exact hm
  | cons lv L' ih =>
    intro m hm
    show SideSorted (applyDeltas (if lv.quantity = 0 then sideErase lv.price m
      else sideInsert lv.price lv.quantity m) L')
    apply ih
    by_cases hq : lv.quantity = 0
    · rw [if_pos hq]
      exact List.Pairwise.sublist (sideErase_sublist lv.price m) hm
    · rw [if_neg hq]
      exact sideInsert_sorted lv.price lv.quantity m hm

theorem applyDeltas_lookup (L : List DepthLevel) (p : ℚ) :
    ∀ m : BookSide, SideSorted m →
      sideLookup p (applyDeltas m L) = deltaFinal p L (sideLookup p m) := by
  induction L with
  | nil => intro m _; rfl
  | cons lv L' ih =>
    intro m hm
    show sideLookup p (applyDeltas (if lv.quantity = 0 then sideErase lv.price m
      else sideInsert lv.price lv.quantity m) L') = _
    by_cases hq : lv.quantity = 0
    · rw [if_pos hq, ih _ (List.Pairwise.sublist (sideErase_sublist lv.price m) hm),
        sideLookup_erase lv.price p m hm]
      show _ = deltaFinal p L' (if lv.price = p then (if lv.quantity = 0 then none
        else some lv.quantity) else sideLookup p m)
      rw [if_pos hq]
    · rw [if_neg hq, ih _ (sideInsert_sorted lv.price lv.quantity m hm),
        sideLookup_insert lv.price lv.quantity p m]
      show _ = deltaFinal p L' (if lv.price = p then (if lv.quantity = 0 then none
        else some lv.quantity) else sideLookup p m)
      rw [if_neg hq]

theorem deltaFinal_touched_or_id (p : ℚ) :
    ∀ L : List DepthLevel, (∀ o o', deltaFinal p L o = deltaFinal p L o') ∨
      (∀ o, deltaFinal p L o = o) := by
  intro L
  induction L with
  | nil => right; intro o; rfl
  | cons lv L' ih =>
    have hstep : ∀ o, deltaFinal p (lv :: L') o = deltaFinal p L'
        (if lv.price = p then (if lv.quantity = 0 then none else some lv.quantity) else o) :=
      fun o => rfl
    by_cases hp : lv.price = p
    · left
      intro o o'
      rw [hstep o, hstep o', if_pos hp, if_pos hp]
    · rcases ih with h | h
      · left; intro o o'; rw [hstep o, hstep o']; exact h _ _
      · right; intro o; rw [hstep o, if_neg hp]; exact h o

-- sorted submap implies sublist

theorem sublist_lookup (p q : ℚ) (m1 m2 : BookSide) (hsub : m1.Sublist m2)
    (hs : SideSorted m2) (h : sideLookup p m1 = some q) : sideLookup p m2 = some q :=
  sideLookup_of_mem p q m2 hs (hsub.subset (sideLookup_some_key p q m1 h))

theorem sorted_submap_sublist :
    ∀ m2 m1 : BookSide, SideSorted m1 → SideSorted m2 →
      (∀ p q, sideLookup p m1 = some q → sideLookup p m2 = some q) → m1.Sublist m2 := by
  intro m2
  induction m2 with
  | nil =>
    intro m1 _ _ hsub
    cases m1 with
    | nil => exact List.Sublist.refl _
    | cons e t =>
      exfalso
      have := hsub e.1 e.2 (by obtain ⟨a, b⟩ := e; simp [sideLookup])
      cases this
  | cons e2 t2 ih =>
    intro m1 hs1 hs2 hsub
    obtain ⟨p2, q2⟩ := e2
    rw [SideSorted, List.pairwise_cons] at hs2
    cases m1 with
    | nil => exact List.nil_sublist _
    | cons e1 t1 =>
      obtain ⟨p1, q1⟩ := e1
      rw [SideSorted, List.pairwise_cons] at hs1
      have h1 : sideLookup p1 ((p2, q2) :: t2) = some q1 := by
        apply hsub p1 q1
        rw [sideLookup_cons, if_pos rfl]
      by_cases hpp : p1 = p2
      · have hq : q1 = q2 := by
          rw [sideLookup_cons, if_pos hpp.symm] at h1
          exact (Option.some.inj h1).symm
        have htail : t1.Sublist t2 := by
          apply ih t1 hs1.2 hs2.2
          intro p q hl
          have hmem := sideLookup_some_key p q t1 hl
          have hppos : p1 < p := hs1.1 _ hmem
          have hstep := hsub p q (by
            rw [sideLookup_cons, if_neg fun h : p1 = p => lt_irrefl p (h ▸ hppos)]
            exact hl)
          rw [sideLookup_cons,
            if_neg fun h : p2 = p => lt_irrefl p (by rw [hpp, h] at hppos; exact hppos)] at hstep
          exact hstep
        rw [hpp, hq]
        exact htail.cons₂ _
      · have h1' : sideLookup p1 t2 = some q1 := by
          rw [sideLookup_cons, if_neg fun h : p2 = p1 => hpp h.symm] at h1
          exact h1
        have hp2lt : p2 < p1 := hs2.1 _ (sideLookup_some_key p1 q1 t2 h1')
        apply List.Sublist.cons
        apply ih _ (List.pairwise_cons.mpr ⟨hs1.1, hs1.2⟩) hs2.2
        intro p q hl
        have hmem := sideLookup_some_key p q ((p1, q1) :: t1) hl
        have hple : p1 ≤ p := by
          rcases List.mem_cons.mp hmem with heq | hmem'
          · rw [show p = p1 from congrArg Prod.fst heq]
          · exact le_of_lt (hs1.1 _ hmem')
        have hstep := hsub p q hl
        rw [sideLookup_cons, if_neg (by
          intro h
          rw [← h] at hple
          exact absurd hp2lt (not_lt_of_le hple))] at hstep
        exact hstep

-- the suffix / prefix trim arguments

theorem trim_drop_eq (S S' : BookSide) (k : ℕ) (hS : SideSorted S)
    (hsub : S'.Sublist S) (hB1 : (S.drop (S.length - k)).Sublist S') :
    S'.drop (S'.length - k) = S.drop (S.length - k) := by
  have hdecomp : S = S.take (S.length - k) ++ S.drop (S.length - k) :=
    (List.take_append_drop _ _).symm
  rw [hdecomp] at hsub
  obtain ⟨X, Y, hXY, hXF, hYB⟩ := List.sublist_append_iff.mp hsub
  have hkey : ∀ a ∈ S.take (S.length - k), ∀ b ∈ S.drop (S.length - k), a.1 < b.1 := by
    have := hS
    rw [SideSorted, hdecomp, List.pairwise_append] at this
    exact this.2.2
  obtain ⟨P, Q, hPQ, hPX, hQB⟩ := List.sublist_append_iff.mp (hXY ▸ hB1)
  have hP : P = [] := by
    cases P with
    | nil => rfl
    | cons c P' =>
      exfalso
      have hcX : c ∈ X := hPX.subset (List.mem_cons_self _ _)
      have hcB : c ∈ S.drop (S.length - k) := by
        rw [hPQ]; exact List.mem_append_left _ (List.mem_cons_self _ _)
      exact lt_irrefl c.1 (hkey c (hXF.subset hcX) c hcB)
  rw [hP, List.nil_append] at hPQ
  have hYeq : Y = S.drop (S.length - k) := hYB.antisymm (hPQ ▸ hQB)
  rw [hXY, hYeq]
  by_cases hk : k ≤ S.length
  · have hlen : (S.drop (S.length - k)).length = k := by
      rw [List.length_drop]
      omega
    rw [List.length_append, hlen, Nat.add_sub_cancel, List.drop_left]
  · have hF : S.take (S.length - k) = [] := by
      rw [Nat.sub_eq_zero_of_le (le_of_not_le hk), List.take_zero]
    rw [hF] at hXF
    have hlen0 : (S.drop (S.length - k)).length - k = 0 := by
      rw [List.length_drop]
      omega
    rw [List.sublist_nil.mp hXF, List.nil_append, hlen0, List.drop_zero]

theorem trim_take_eq (S S' : BookSide) (k : ℕ) (hS : SideSorted S)
    (hsub : S'.Sublist S) (hB1 : (S.take k).Sublist S') :
    S'.take k = S.take k := by
  have hdecomp : S = S.take k ++ S.drop k := (List.take_append_drop _ _).symm
  rw [hdecomp] at hsub
  obtain ⟨Y, X, hXY, hYB, hXF⟩ := List.sublist_append_iff.mp hsub
  have hkey : ∀ a ∈ S.take k, ∀ b ∈ S.drop k, a.1 < b.1 := by
    have := hS
    rw [SideSorted, hdecomp, List.pairwise_append] at this
    exact this.2.2
  obtain ⟨Q, P, hPQ, hQB, hPX⟩ := List.sublist_append_iff.mp (hXY ▸ hB1)
  have hP : P = [] := by
    cases P with
    | nil => rfl
    | cons c P' =>
      exfalso
      have hcX : c ∈ X := hPX.subset (List.mem_cons_self _ _)
      have hcB : c ∈ S.take k := by
        rw [hPQ]; exact List.mem_append_right _ (List.mem_cons_self _ _)
      exact lt_irrefl c.1 (hkey c hcB c (hXF.subset hcX))
  rw [hP, List.append_nil] at hPQ
  have hYeq : Y = S.take k := hYB.antisymm (hPQ ▸ hQB)
  rw [hXY, hYeq]
  by_cases hk : k ≤ S.length
  · have hlen : (S.take k).length = k := List.length_take_of_le hk
    rw [List.take_append_eq_append_take, List.take_of_length_le (le_of_eq hlen), hlen,
      Nat.sub_self, List.take_zero, List.append_nil]
  · have hF : S.drop k = [] := List.drop_eq_nil_of_le (le_of_not_le hk)
    rw [hF] at hXF
    rw [List.sublist_nil.mp hXF, List.append_nil, List.take_take, min_self]

-- per-side idempotence

theorem applyDeltas_submap_forward (m B1 : BookSide) (L : List DepthLevel)
    (hm : SideSorted m) (hB1s : SideSorted B1)
    (hB1 : ∀ p q, sideLookup p B1 = some q → sideLookup p (applyDeltas m L) = some q) :
    ∀ p q, sideLookup p (applyDeltas B1 L) = some q →
      sideLookup p (applyDeltas m L) = some q := by
  intro p q h
  rw [applyDeltas_lookup L p B1 hB1s] at h
  rcases deltaFinal_touched_or_id p L with ht | hi
  · rw [applyDeltas_lookup L p m hm, ← ht (sideLookup p B1)]
    exact h
  · rw [hi] at h
    exact hB1 p q h

theorem applyDeltas_submap_backward (m B1 : BookSide) (L : List DepthLevel)
    (hm : SideSorted m) (hB1s : SideSorted B1)
    (hB1 : ∀ p q, sideLookup p B1 = some q → sideLookup p (applyDeltas m L) = some q) :
    ∀ p q, sideLookup p B1 = some q → sideLookup p (applyDeltas B1 L) = some q := by
  intro p q h
  rw [applyDeltas_lookup L p B1 hB1s]
  rcases deltaFinal_touched_or_id p L with ht | hi
  · rw [ht (sideLookup p B1) (sideLookup p m), ← applyDeltas_lookup L p m hm]
    exact hB1 p q h
  · rw [hi]
    exact h

theorem side_idempotent_drop (m : BookSide) (L : List DepthLevel) (k : ℕ)
    (hm : SideSorted m) :
    (applyDeltas ((applyDeltas m L).drop ((applyDeltas m L).length - k)) L).drop
        ((applyDeltas ((applyDeltas m L).drop ((applyDeltas m L).length - k)) L).length - k) =
      (applyDeltas m L).drop ((applyDeltas m L).length - k) := by
  set S := applyDeltas m L with hSdef
  set B1 := S.drop (S.length - k) with hB1def
  have hSs : SideSorted S := applyDeltas_sorted L m hm
  have hB1s : SideSorted B1 := List.Pairwise.sublist (List.drop_sublist _ _) hSs
  have hB1m : ∀ p q, sideLookup p B1 = some q → sideLookup p S = some q :=
    fun p q h => sublist_lookup p q B1 S (List.drop_sublist _ _) hSs h
  have hS' : SideSorted (applyDeltas B1 L) := applyDeltas_sorted L B1 hB1s
  have hfwd := applyDeltas_submap_forward m B1 L hm hB1s hB1m
  have hbwd := applyDeltas_submap_backward m B1 L hm hB1s hB1m
  have hsub : (applyDeltas B1 L).Sublist S :=
    sorted_submap_sublist S (applyDeltas B1 L) hS' hSs hfwd
  have hB1sub : B1.Sublist (applyDeltas B1 L) :=
    sorted_submap_sublist (applyDeltas B1 L) B1 hB1s hS' hbwd
  exact trim_drop_eq S (applyDeltas B1 L) k hSs hsub hB1sub

theorem side_idempotent_take (m : BookSide) (L : List DepthLevel) (k : ℕ)
    (hm : SideSorted m) :
    (applyDeltas ((applyDeltas m L).take k) L).take k = (applyDeltas m L).take k := by
  set S := applyDeltas m L with hSdef
  set B1 := S.take k with hB1def
  have hSs : SideSorted S := applyDeltas_sorted L m hm
  have hB1s : SideSorted B1 := List.Pairwise.sublist (List.take_sublist _ _) hSs
  have hB1m : ∀ p q, sideLookup p B1 = some q → sideLookup p S = some q :=
    fun p q h => sublist_lookup p q B1 S (List.take_sublist _ _) hSs h
  have hS' : SideSorted (applyDeltas B1 L) := applyDeltas_sorted L B1 hB1s
  have hfwd := applyDeltas_submap_forward m B1 L hm hB1s hB1m
  have hbwd := applyDeltas_submap_backward m B1 L hm hB1s hB1m
  have hsub : (applyDeltas B1 L).Sublist S :=
    sorted_submap_sublist S (applyDeltas B1 L) hS' hSs hfwd
  have hB1sub : B1.Sublist (applyDeltas B1 L) :=
    sorted_submap_sublist (applyDeltas B1 L) B1 hB1s hS' hbwd
  exact trim_take_eq S (applyDeltas B1 L) k hSs hsub hB1sub

-- update preserves sortedness; new is sorted

theorem update_sorted (b : LocalOrderBook) (d : DepthUpdate)
    (hb : SideSorted b.bids) (ha : SideSorted b.asks) :
    SideSorted (b.update d).bids ∧ SideSorted (b.update d).asks :=
  ⟨List.Pairwise.sublist (List.drop_sublist _ _) (applyDeltas_sorted d.bids b.bids hb),
   List.Pairwise.sublist (List.take_sublist _ _) (applyDeltas_sorted d.asks b.asks ha)⟩

/-- C9: applying the same `DepthUpdate` twice in a row to a `LocalOrderBook` with
sorted sides leaves bids and asks identical to applying it once: the second
application is a no-op after trimming. -/
theorem order_book_update_idempotent (b : LocalOrderBook) (d : DepthUpdate)
    (hb : SideSorted b.bids) (ha : SideSorted b.asks) :
    (b.update d).update d = b.update d := by
  have hbids := side_idempotent_drop b.bids d.bids b.maxDepth hb
  have hasks := side_idempotent_take b.asks d.asks b.maxDepth ha
  dsimp only [LocalOrderBook.update]
  rw [hbids, hasks]

theorem order_book_update_idempotent_witness :
    SideSorted c9Book.bids ∧ SideSorted c9Book.asks ∧
      (c9Book.update c9Update).update c9Update = c9Book.update c9Update :=
  ⟨by norm_num [c9Book, SideSorted, List.pairwise_cons],
   by norm_num [c9Book, SideSorted, List.pairwise_cons],
   order_book_update_idempotent c9Book c9Update
     (by norm_num [c9Book, SideSorted, List.pairwise_cons])
     (by norm_num [c9Book, SideSorted, List.pairwise_cons])⟩

end Rusto
